import Mathlib

/-!
Verification of monsterwm-xcb (src/monsterwm.c) against its specification.

Each definition below is a shallow embedding of the corresponding C function
or expression; the source line is cited next to every definition.  Machine
integers (`int`, `int16_t`, `uint32_t`) are modelled as `Int`/`Nat`; C
truncated division and modulo on `int` are `Int.tdiv`/`Int.tmod`.  X protocol
side effects (requests sent to the server) are modelled as emitted values;
the window-manager state (monitors, desktops, client lists) is explicit.
-/

set_option linter.unusedVariables false

namespace Monsterwm

/-- enum { TILE, MONOCLE, BSTACK, GRID, MODES }; (monsterwm.c:54) -/
def TILE : Nat := 0

/-- MONOCLE layout mode (monsterwm.c:54). -/
def MONOCLE : Nat := 1

/-- BSTACK layout mode (monsterwm.c:54). -/
def BSTACK : Nat := 2

/-- GRID layout mode (monsterwm.c:54). -/
def GRID : Nat := 3

/-! ### areatomonitor (monsterwm.c:337-342)

`int areatomonitor(int x, int y)` walks the monitor array and returns the
index of the first monitor whose working rectangle strictly contains the
point; if no monitor matches it returns `current_monitor`. -/

/-- Working rectangle of one monitor: the `wx, wy, ww, wh` fields of
`monitor` (monsterwm.c:135) that `areatomonitor` reads. -/
structure MonRect where
  wx : Int
  wy : Int
  ww : Int
  wh : Int
deriving DecidableEq, Repr

/-- The containment test of `areatomonitor` (monsterwm.c:339-340):
`monitors[m].wx < x && (monitors[m].wx + monitors[m].ww) > x &&
 monitors[m].wy < y && (monitors[m].wy + monitors[m].wh) > y`. -/
def strictlyInside (r : MonRect) (x y : Int) : Prop :=
  r.wx < x ∧ r.wx + r.ww > x ∧ r.wy < y ∧ r.wy + r.wh > y

instance (r : MonRect) (x y : Int) : Decidable (strictlyInside r x y) := by
  unfold strictlyInside; infer_instance

/-- The loop of `areatomonitor` (monsterwm.c:338-340): scan monitors in
index order, return the first index whose rectangle strictly contains
`(x, y)`. -/
def atmLoop (x y : Int) : Nat → List MonRect → Option Nat
  | _, [] => none
  | m, r :: rest =>
    if strictlyInside r x y then some m else atmLoop x y (m + 1) rest

/-- `areatomonitor` (monsterwm.c:337-342): first strictly containing
monitor, else the current monitor. -/
def areatomonitor (mons : List MonRect) (current_monitor : Nat) (x y : Int) : Nat :=
  match atmLoop x y 0 mons with
  | some m => m
  | none => current_monitor

/-! ### grid column computation (monsterwm.c:663-676)

`grid` computes `cols` with
`for (cols=0; cols <= n/2; cols++) if (cols*cols >= n) break;`
then applies the special case `if (n == 5) cols = 2;`, and
`int rows = n/cols;`. -/

/-- The `cols` loop of `grid` (monsterwm.c:666): starting from `cols`,
return the first value `≤ n/2` whose square reaches `n`; if the loop
condition fails first, return the value at which it failed. -/
def gridColsGo (n cols : Nat) : Nat :=
  if h : cols ≤ n / 2 then
    if n ≤ cols * cols then cols
    else gridColsGo n (cols + 1)
  else cols
termination_by n / 2 + 1 - cols
decreasing_by omega

/-- `cols` as computed by `grid` (monsterwm.c:666-667), including the
`n == 5` special case. -/
def grid_cols (n : Nat) : Nat :=
  let cols := gridColsGo n 0
  if n = 5 then 2 else cols

/-- `int rows = n/cols;` (monsterwm.c:669). -/
def grid_rows (n : Nat) : Nat := n / grid_cols n

theorem half_succ_sq (n : Nat) : n ≤ (n / 2 + 1) * (n / 2 + 1) := by
  have h : n ≤ 2 * (n / 2) + 1 := by omega
  have h2 : (n / 2 + 1) * (n / 2 + 1) = n / 2 * (n / 2) + 2 * (n / 2) + 1 := by ring
  have h3 : 0 ≤ n / 2 * (n / 2) := Nat.zero_le _
  omega

theorem gridColsGo_spec (n : Nat) :
    ∀ fuel cols, n / 2 + 1 - cols ≤ fuel →
      (∀ m, m < cols → m * m < n) →
      n ≤ gridColsGo n cols * gridColsGo n cols ∧
        ∀ m, m < gridColsGo n cols → m * m < n := by
  intro fuel
  induction fuel with
  | zero =>
    intro cols hf hinv
    have hgt : ¬ cols ≤ n / 2 := by omega
    rw [gridColsGo]
    simp only [hgt, dite_false]
    refine ⟨?_, hinv⟩
    calc n ≤ (n / 2 + 1) * (n / 2 + 1) := half_succ_sq n
      _ ≤ cols * cols := Nat.mul_le_mul (by omega) (by omega)
  | succ fuel ih =>
    intro cols hf hinv
    rw [gridColsGo]
    by_cases hle : cols ≤ n / 2
    · simp only [hle, dite_true]
      by_cases hsq : n ≤ cols * cols
      · rw [if_pos hsq]
        exact ⟨hsq, hinv⟩
      · rw [if_neg hsq]
        refine ih (cols + 1) (by omega) ?_
        intro m hm
        rcases Nat.lt_succ_iff_lt_or_eq.mp hm with h | h
        · exact hinv m h
        · subst h; omega
    · simp only [hle, dite_false]
      refine ⟨?_, hinv⟩
      calc n ≤ (n / 2 + 1) * (n / 2 + 1) := half_succ_sq n
        _ ≤ cols * cols := Nat.mul_le_mul (by omega) (by omega)

/-- C6: for every `n ≥ 1`, `grid` computes `cols` as the least integer
whose square reaches `n`, except that `n = 5` yields `cols = 2`, and the
base row count is `rows = n / cols` (integer division)
(monsterwm.c:663-676). -/
theorem grid_cols_spec (n : Nat) (hn : 1 ≤ n) :
    (n ≠ 5 →
      n ≤ grid_cols n * grid_cols n ∧ ∀ m, n ≤ m * m → grid_cols n ≤ m) ∧
    (n = 5 → grid_cols n = 2) ∧
    grid_rows n = n / grid_cols n := by
  refine ⟨?_, ?_, rfl⟩
  · intro h5
    have hspec := gridColsGo_spec n (n / 2 + 1) 0 (by omega) (by omega)
    have hcols : grid_cols n = gridColsGo n 0 := by
      unfold grid_cols; simp [h5]
    rw [hcols]
    refine ⟨hspec.1, ?_⟩
    intro m hm
    by_contra hlt
    push_neg at hlt
    have := hspec.2 m hlt
    omega
  · intro h5
    unfold grid_cols
    simp [h5]

/-- Witness for `grid_cols_spec` at `n = 10`: `cols = 4`, `rows = 2`. -/
theorem grid_cols_spec_witness :
    (10 ≠ 5 →
      10 ≤ grid_cols 10 * grid_cols 10 ∧ ∀ m, 10 ≤ m * m → grid_cols 10 ≤ m) ∧
    (10 = 5 → grid_cols 10 = 2) ∧
    grid_rows 10 = 10 / grid_cols 10 :=
  grid_cols_spec 10 (by decide)

theorem atmLoop_none (x y : Int) :
    ∀ (mons : List MonRect) (m : Nat),
      (∀ r ∈ mons, ¬ strictlyInside r x y) → atmLoop x y m mons = none := by
  intro mons
  induction mons with
  | nil => intro m h; rfl
  | cons r rest ih =>
    intro m h
    have hr : ¬ strictlyInside r x y := h r (List.mem_cons_self r rest)
    simp only [atmLoop, hr, ite_false]
    exact ih (m + 1) (fun q hq => h q (List.mem_cons_of_mem r hq))

/-- C9: a point that is not strictly inside any monitor's working
rectangle — in particular any point on a rectangle's edge, since the
containment test of `areatomonitor` uses strict inequalities — maps to the
current monitor's index (monsterwm.c:337-342). -/
theorem areatomonitor_outside_spec (mons : List MonRect) (cm : Nat) (x y : Int)
    (h : ∀ r ∈ mons, ¬ strictlyInside r x y) :
    areatomonitor mons cm x y = cm ∧
    ∀ r : MonRect,
      (x = r.wx ∨ x = r.wx + r.ww ∨ y = r.wy ∨ y = r.wy + r.wh) →
      ¬ strictlyInside r x y := by
  constructor
  · unfold areatomonitor
    rw [atmLoop_none x y mons 0 h]
  · intro r hedge hin
    rcases hin with ⟨h1, h2, h3, h4⟩
    rcases hedge with h' | h' | h' | h' <;> omega

/-- Witness for `areatomonitor_outside_spec`: the point `(0, 5)` lies on
the left edge of the only monitor `(0, 0, 10, 10)` and maps to the current
monitor index `7`. -/
theorem areatomonitor_outside_spec_witness :
    areatomonitor [⟨0, 0, 10, 10⟩] 7 0 5 = 7 ∧
    ∀ r : MonRect,
      ((0 : Int) = r.wx ∨ (0 : Int) = r.wx + r.ww ∨ (5 : Int) = r.wy ∨ (5 : Int) = r.wy + r.wh) →
      ¬ strictlyInside r 0 5 :=
  areatomonitor_outside_spec [⟨0, 0, 10, 10⟩] 7 0 5 (by decide)

/-! ### resize_master (monsterwm.c:1011-1016)

```
void resize_master(const Arg *arg) {
    int msz = CM->master_size + arg->i;
    if ((CM->mode == BSTACK ? CM->wh : CM->ww) - msz <= MINWSZ || msz <= MINWSZ) return;
    CM->master_size = msz;
    tile();
}
```
-/

/-- The fields of the live monitor state that `resize_master` reads or
writes (monsterwm.c:133-135). -/
structure RMState where
  master_size : Int
  mode : Nat
  ww : Int
  wh : Int
deriving DecidableEq, Repr

/-- `resize_master` (monsterwm.c:1011-1016).  The returned `Bool` records
whether `tile()` was invoked (i.e. the change was applied). -/
def resize_master (MINWSZ : Int) (s : RMState) (delta : Int) : RMState × Bool :=
  let msz := s.master_size + delta
  if (if s.mode = BSTACK then s.wh else s.ww) - msz ≤ MINWSZ ∨ msz ≤ MINWSZ then
    (s, false)
  else
    ({ s with master_size := msz }, true)

/-- C8: `resize_master(delta)` rejects the change — leaving the whole state
unchanged and not retiling — whenever the new master size would be
`≤ MINWSZ` or the primary axis length (working height in BSTACK mode,
working width otherwise) minus the new master size would be `≤ MINWSZ`;
otherwise it sets `master_size` to the new value, changes nothing else, and
retiles (monsterwm.c:1011-1016). -/
theorem resize_master_spec (MINWSZ : Int) (s : RMState) (delta : Int) :
    ((s.master_size + delta ≤ MINWSZ ∨
        (if s.mode = BSTACK then s.wh else s.ww) - (s.master_size + delta) ≤ MINWSZ) →
      resize_master MINWSZ s delta = (s, false)) ∧
    (MINWSZ < s.master_size + delta →
      MINWSZ < (if s.mode = BSTACK then s.wh else s.ww) - (s.master_size + delta) →
      resize_master MINWSZ s delta = ({ s with master_size := s.master_size + delta }, true)) := by
  constructor
  · intro h
    unfold resize_master
    rw [if_pos (by tauto)]
  · intro h1 h2
    unfold resize_master
    rw [if_neg (by omega)]

/-- Witness for `resize_master_spec`: on a TILE desktop of width 800 with
master 400 and `MINWSZ = 50`, a delta of `+10` is applied, while a delta of
`+360` is rejected. -/
theorem resize_master_spec_witness :
    resize_master 50 ⟨400, 0, 800, 600⟩ 10 = (⟨410, 0, 800, 600⟩, true) ∧
    resize_master 50 ⟨400, 0, 800, 600⟩ 360 = (⟨400, 0, 800, 600⟩, false) :=
  ⟨(resize_master_spec 50 ⟨400, 0, 800, 600⟩ 10).2 (by decide) (by decide),
   (resize_master_spec 50 ⟨400, 0, 800, 600⟩ 360).1 (by decide)⟩

/-! ### border width rule of update_current (monsterwm.c:1348-1349)

```
for (c=CM->head; c; c=c->next) {
    xcb_border_width(dis, c->win, (!CM->head->next || c->isfullscrn ||
        (CM->mode == MONOCLE && (!c->isfloating && !c->istransient))) ? 0 : BORDER_WIDTH);
```
-/

/-- The border width assigned to one client `c` of the current desktop by
the pass of `update_current` (monsterwm.c:1349).  `hd` is the current
desktop's client list (`CM->head`'s chain), so `hd.tail = []` is
`!CM->head->next`. -/
def update_current_border (BORDER_WIDTH : Int) (hd : List Nat) (mode : Nat)
    (isfullscrn isfloating istransient : Bool) : Int :=
  if hd.tail = [] ∨ isfullscrn = true ∨
      (mode = MONOCLE ∧ isfloating = false ∧ istransient = false) then 0
  else BORDER_WIDTH

/-- C5: in the pass of `update_current`, a client's border width is set to
0 iff the desktop has exactly one client, or the client is fullscreen, or
the mode is MONOCLE and the client is neither floating nor transient;
otherwise it is set to `BORDER_WIDTH`.  In particular in MONOCLE mode every
non-floating, non-transient client gets border width 0
(monsterwm.c:1348-1355). -/
theorem update_current_border_spec (BORDER_WIDTH : Int) (hd : List Nat) (mode : Nat)
    (fs fl tr : Bool) (c : Nat) (hBW : BORDER_WIDTH ≠ 0) (hc : c ∈ hd) :
    (update_current_border BORDER_WIDTH hd mode fs fl tr = 0 ↔
      (hd.length = 1 ∨ fs = true ∨ (mode = MONOCLE ∧ fl = false ∧ tr = false))) ∧
    (mode = MONOCLE → fl = false → tr = false →
      update_current_border BORDER_WIDTH hd mode fs fl tr = 0) := by
  have hne : hd ≠ [] := by
    intro h; rw [h] at hc; exact (List.not_mem_nil c) hc
  have htail : hd.tail = [] ↔ hd.length = 1 := by
    cases hd with
    | nil => exact absurd rfl hne
    | cons a t =>
      simp only [List.tail_cons, List.length_cons]
      constructor
      · intro h; rw [h]; rfl
      · intro h
        have : t.length = 0 := by omega
        exact List.length_eq_zero.mp this
  constructor
  · unfold update_current_border
    by_cases hcond : hd.tail = [] ∨ fs = true ∨ (mode = MONOCLE ∧ fl = false ∧ tr = false)
    · rw [if_pos hcond]
      constructor
      · intro _
        rcases hcond with h | h | h
        · exact Or.inl (htail.mp h)
        · exact Or.inr (Or.inl h)
        · exact Or.inr (Or.inr h)
      · intro _; rfl
    · rw [if_neg hcond]
      constructor
      · intro h; exact absurd h hBW
      · intro h
        exfalso
        apply hcond
        rcases h with h | h | h
        · exact Or.inl (htail.mpr h)
        · exact Or.inr (Or.inl h)
        · exact Or.inr (Or.inr h)
  · intro hm hf ht
    unfold update_current_border
    rw [if_pos (Or.inr (Or.inr ⟨hm, hf, ht⟩))]

/-- Witness for `update_current_border_spec`: a non-floating non-transient
client on a two-client MONOCLE desktop with `BORDER_WIDTH = 2` gets border
width 0. -/
theorem update_current_border_spec_witness :
    (update_current_border 2 [4, 9] MONOCLE false false false = 0 ↔
      ([4, 9].length = 1 ∨ false = true ∨ (MONOCLE = MONOCLE ∧ false = false ∧ false = false))) ∧
    (MONOCLE = MONOCLE → false = false → false = false →
      update_current_border 2 [4, 9] MONOCLE false false false = 0) :=
  update_current_border_spec 2 [4, 9] MONOCLE false false false 4 (by decide) (by decide)

/-! ### killclient / deletewindow (monsterwm.c:690-702, 533-543)

`deletewindow(w)` fills a stack-allocated `xcb_client_message_event_t`:
only `response_type`, `window`, `format`, `sequence`, `type`,
`data.data32[0]` and `data.data32[1]` are assigned; `data32[2..4]` keep
whatever the uninitialized stack memory held.  `killclient()` reads the
window's WM_PROTOCOLS, sends the delete message if WM_DELETE_WINDOW is
advertised and a KillClient request otherwise, then removes the client. -/

/-- `XCB_CLIENT_MESSAGE` response type (value 33 in the X protocol). -/
def XCB_CLIENT_MESSAGE : Nat := 33

/-- `XCB_CURRENT_TIME` (value 0 in the X protocol). -/
def XCB_CURRENT_TIME : Nat := 0

/-- An `xcb_client_message_event_t` as filled by `deletewindow`
(monsterwm.c:534-541); `d0 .. d4` are `data.data32[0] .. data.data32[4]`
and `mtype` is the `type` field. -/
structure ClientMessageEvent where
  response_type : Nat
  window : Nat
  format : Nat
  sequence : Nat
  mtype : Nat
  d0 : Nat
  d1 : Nat
  d2 : Nat
  d3 : Nat
  d4 : Nat
deriving DecidableEq, Repr

/-- `deletewindow` (monsterwm.c:533-543).  The C event `ev` is an
uninitialized stack variable; `ev0` stands for its indeterminate initial
contents, of which the fields not assigned by the code (`d2`, `d3`, `d4`)
survive into the sent message. -/
def deletewindow (wmProtocols wmDelete w : Nat) (ev0 : ClientMessageEvent) :
    ClientMessageEvent :=
  { ev0 with
    response_type := XCB_CLIENT_MESSAGE
    window := w
    format := 32
    sequence := 0
    mtype := wmProtocols
    d0 := wmDelete
    d1 := XCB_CURRENT_TIME }

/-- The X requests issued by `killclient` that the claim observes. -/
inductive KillStep where
  | sendDelete (ev : ClientMessageEvent)
  | killRequest (w : Nat)
  | removeClient (c : Nat)
deriving DecidableEq, Repr

/-- The scan of the WM_PROTOCOLS reply in `killclient` (monsterwm.c:696):
`for(; n != reply.atoms_len; ++n)
   if ((got = reply.atoms[n] == wmatoms[WM_DELETE_WINDOW])) break;`. -/
def gotDelete (wmDelete : Nat) : List Nat → Bool
  | [] => false
  | a :: r => if a = wmDelete then true else gotDelete wmDelete r

/-- `killclient` (monsterwm.c:690-702), as the sequence of requests it
issues.  `protocols` is the WM_PROTOCOLS reply for the current client's
window (`none` when the reply fails, leaving `got = false`); `cur` is
`CM->current`; `winOf` maps a client to its `win` field. -/
def killclient (wmProtocols wmDelete : Nat) (winOf : Nat → Nat)
    (protocols : Option (List Nat)) (cur : Option Nat)
    (ev0 : ClientMessageEvent) : List KillStep :=
  match cur with
  | none => []
  | some c =>
    let got := match protocols with
      | some atoms => gotDelete wmDelete atoms
      | none => false
    if got then
      [KillStep.sendDelete (deletewindow wmProtocols wmDelete (winOf c) ev0),
       KillStep.removeClient c]
    else
      [KillStep.killRequest (winOf c), KillStep.removeClient c]

/-- Uninitialized stack contents used by the C7 counterexample: the bytes
at `data32[2]` happen to hold 9. -/
def c7ev0 : ClientMessageEvent := ⟨0, 0, 0, 0, 0, 0, 0, 9, 0, 0⟩

/-- C7 counterexample: with WM_PROTOCOLS = 100, WM_DELETE_WINDOW = 101, a
current client 3 whose window is 7 and whose protocols advertise
WM_DELETE_WINDOW, `killclient` sends the delete message — but its
`data32 = [101, 0, 9, 0, 0]`, not `[101, 0, 0, 0, 0]` as the claim states:
`data32[2..4]` are never assigned and keep the indeterminate stack
contents (here 9). -/
theorem killclient_data32_cex :
    killclient 100 101 (fun _ => 7) (some [101]) (some 3) c7ev0 =
      [KillStep.sendDelete ⟨33, 7, 32, 0, 100, 101, 0, 9, 0, 0⟩,
       KillStep.removeClient 3] ∧
    (deletewindow 100 101 7 c7ev0).d2 ≠ 0 := by
  constructor
  · rfl
  · decide

/-- `gotDelete` is exactly membership of WM_DELETE_WINDOW in the
advertised protocol atoms. -/
theorem gotDelete_eq_mem (wmDelete : Nat) (atoms : List Nat) :
    gotDelete wmDelete atoms = true ↔ wmDelete ∈ atoms := by
  induction atoms with
  | nil => simp [gotDelete]
  | cons a r ih =>
    by_cases ha : a = wmDelete
    · subst ha
      simp [gotDelete]
    · simp only [gotDelete, if_neg ha, ih, List.mem_cons]
      constructor
      · intro h; exact Or.inr h
      · intro h
        rcases h with h | h
        · exact absurd h.symm ha
        · exact h

/-- C7 amended: when the current client advertises WM_DELETE_WINDOW in
WM_PROTOCOLS, `killclient` sends it a ClientMessage with type WM_PROTOCOLS,
format 32, `data32[0] = WM_DELETE_WINDOW` and `data32[1] = CurrentTime`
(`data32[2..4]` keep the uninitialized stack contents), then removes the
client; when WM_DELETE_WINDOW is not advertised (including a failed
WM_PROTOCOLS reply) it issues a KillClient request instead and then removes
the client; with no current client it does nothing
(monsterwm.c:690-702, 533-543). -/
theorem killclient_spec (wmProtocols wmDelete : Nat) (winOf : Nat → Nat)
    (atoms : List Nat) (c : Nat) (ev0 : ClientMessageEvent) :
    (wmDelete ∈ atoms →
      killclient wmProtocols wmDelete winOf (some atoms) (some c) ev0 =
        [KillStep.sendDelete
          { ev0 with
            response_type := 33
            window := winOf c
            format := 32
            sequence := 0
            mtype := wmProtocols
            d0 := wmDelete
            d1 := 0 },
         KillStep.removeClient c]) ∧
    (wmDelete ∉ atoms →
      killclient wmProtocols wmDelete winOf (some atoms) (some c) ev0 =
        [KillStep.killRequest (winOf c), KillStep.removeClient c]) ∧
    killclient wmProtocols wmDelete winOf none (some c) ev0 =
      [KillStep.killRequest (winOf c), KillStep.removeClient c] ∧
    killclient wmProtocols wmDelete winOf (some atoms) none ev0 = [] := by
  refine ⟨?_, ?_, rfl, rfl⟩
  · intro hmem
    have hgot : gotDelete wmDelete atoms = true := (gotDelete_eq_mem wmDelete atoms).mpr hmem
    simp only [killclient, hgot, if_true]
    rfl
  · intro hmem
    have hgot : gotDelete wmDelete atoms = false := by
      rcases Bool.eq_false_or_eq_true (gotDelete wmDelete atoms) with h | h
      · exact absurd ((gotDelete_eq_mem wmDelete atoms).mp h) hmem
      · exact h
    simp only [killclient, hgot]
    rfl

/-- Witness for `killclient_spec` with WM_PROTOCOLS = 100,
WM_DELETE_WINDOW = 101, current client 3 with window 7, protocols
`[200, 101]`. -/
theorem killclient_spec_witness :
    (101 ∈ [200, 101] →
      killclient 100 101 (fun _ => 7) (some [200, 101]) (some 3) c7ev0 =
        [KillStep.sendDelete
          { c7ev0 with
            response_type := 33
            window := 7
            format := 32
            sequence := 0
            mtype := 100
            d0 := 101
            d1 := 0 },
         KillStep.removeClient 3]) ∧
    (101 ∉ [200, 101] →
      killclient 100 101 (fun _ => 7) (some [200, 101]) (some 3) c7ev0 =
        [KillStep.killRequest 7, KillStep.removeClient 3]) ∧
    killclient 100 101 (fun _ => 7) none (some 3) c7ev0 =
      [KillStep.killRequest 7, KillStep.removeClient 3] ∧
    killclient 100 101 (fun _ => 7) (some [200, 101]) none c7ev0 = [] :=
  killclient_spec 100 101 (fun _ => 7) [200, 101] 3 c7ev0

/-! ### Layout engines (monsterwm.c:663-676, 861-863, 1234-1286, 1310-1314)

The layouts emit `xcb_move_resize` calls; we record them as a list of
`MoveResize` values in emission order.  C `int` arithmetic (including the
truncated `/` and `%`) is modelled with `Int.tdiv` / `Int.tmod`. -/

/-- The per-client flags a layout engine reads (monsterwm.c:105-110). -/
structure TClient where
  id : Nat
  isfullscrn : Bool
  isfloating : Bool
  istransient : Bool
deriving DecidableEq, Repr

/-- `ISFFT(c)` (monsterwm.c:51): fullscreen, floating or transient
clients are skipped by every layout. -/
def ISFFT (c : TClient) : Bool :=
  c.isfullscrn || c.isfloating || c.istransient

/-- One `xcb_move_resize(dis, win, x, y, w, h)` call (monsterwm.c:243). -/
structure MoveResize where
  win : Nat
  x : Int
  y : Int
  w : Int
  h : Int
deriving DecidableEq, Repr

/-- `monocle` (monsterwm.c:861-863): every tileable client is placed at
`(0, cy, ww, hh)`. -/
def monocle (ww : Int) (hh cy : Int) : List TClient → List MoveResize
  | [] => []
  | c :: rest =>
    if ISFFT c then monocle ww hh cy rest
    else ⟨c.id, 0, cy, ww, hh⟩ :: monocle ww hh cy rest

/-- The trailing loop of `stack` (monsterwm.c:1281-1285): place the
remaining stack clients, advancing `cx` (BSTACK) or `cy` (TILE) by `z`. -/
def stackRest (b : Bool) (z cw ch : Int) : Int → Int → List TClient → List MoveResize
  | _, _, [] => []
  | cx, cy, c :: rest =>
    if ISFFT c then stackRest b z cw ch cx cy rest
    else if b then ⟨c.id, cx, cy, ch, cw⟩ :: stackRest b z cw ch (cx + z) cy rest
    else ⟨c.id, cx, cy, cw, ch⟩ :: stackRest b z cw ch cx (cy + z) rest

/-- `stack` (monsterwm.c:1234-1286), the shared TILE/BSTACK engine.
`b = (mode == BSTACK)`; `z` starts as the split axis (`ww` for BSTACK,
`hh` otherwise); the first tileable client is the master, the second gets
the `d` remainder pixels, the rest advance by `z`. -/
def stack (mode : Nat) (ww master_size growth BORDER_WIDTH : Int)
    (hh cy : Int) (cs : List TClient) : List MoveResize :=
  let b : Bool := mode == BSTACK
  let ma := master_size
  match cs.filter (fun c => !(ISFFT c)) with
  | [] => []
  | [c] =>
    [⟨c.id, 0, cy, ww - 2 * BORDER_WIDTH, hh - 2 * BORDER_WIDTH⟩]
  | c :: c2 :: rest =>
    let n : Int := ((rest.length : Int) + 1)
    let z0 : Int := if b then ww else hh
    let d : Int := if n > 1 then Int.tmod (z0 - growth) n + growth else 0
    let z : Int := if n > 1 then Int.tdiv (z0 - growth) n else z0
    let master : MoveResize :=
      if b then ⟨c.id, 0, cy, ww - 2 * BORDER_WIDTH, ma - BORDER_WIDTH⟩
      else ⟨c.id, 0, cy, ma - BORDER_WIDTH, hh - 2 * BORDER_WIDTH⟩
    let cx : Int := if b then 0 else ma
    let cw : Int := (if b then hh else ww) - 2 * BORDER_WIDTH - ma
    let ch : Int := z - BORDER_WIDTH
    let cy1 : Int := if b then cy + ma else cy
    let first : MoveResize :=
      if b then ⟨c2.id, cx, cy1, ch - BORDER_WIDTH + d, cw⟩
      else ⟨c2.id, cx, cy1, cw, ch - BORDER_WIDTH + d⟩
    let cx2 : Int := if b then cx + ch + d else cx
    let cy2 : Int := if b then cy1 else cy1 + ch + d
    master :: first :: stackRest b z cw ch cx2 cy2 rest

/-- The placement loop of `grid` (monsterwm.c:670-675).  `i` starts at
`-1` and counts tileable clients; `rows` is mutated in place when a column
must be extended, `rn`/`cn` are the row/column cursors. -/
def gridRest (wx wy BORDER_WIDTH cw ch : Int) (n cols : Int)
    (cy : Int) : Int → Int → Int → Int → List TClient → List MoveResize
  | _, _, _, _, [] => []
  | i, rows, rn, cn, c :: rest =>
    if ISFFT c then gridRest wx wy BORDER_WIDTH cw ch n cols cy i rows rn cn rest
    else
      let i' := i + 1
      let rows' := if Int.tdiv i' rows + 1 > cols - Int.tmod n cols
        then Int.tdiv n cols + 1 else rows
      let call : MoveResize :=
        ⟨c.id, wx + cn * cw, wy + cy + Int.tdiv (rn * ch) rows',
          cw - BORDER_WIDTH, Int.tdiv ch rows' - BORDER_WIDTH⟩
      let rn' := rn + 1
      if rn' ≥ rows' then
        call :: gridRest wx wy BORDER_WIDTH cw ch n cols cy i' rows' 0 (cn + 1) rest
      else
        call :: gridRest wx wy BORDER_WIDTH cw ch n cols cy i' rows' rn' cn rest

/-- `grid` (monsterwm.c:663-676).  `cols` comes from `grid_cols`; cell
width divides by `(cols?cols:1)`.  (For `n = 0` the C `n/cols` is
undefined; Lean's `0 / 0 = 0` stands in, and the loop then emits nothing
tileable anyway.) -/
def grid (ww wx wy BORDER_WIDTH : Int) (hh cy : Int) (cs : List TClient) :
    List MoveResize :=
  let n : Nat := (cs.filter (fun c => !(ISFFT c))).length
  let cols : Nat := grid_cols n
  let rows : Nat := n / cols
  let ch : Int := hh - BORDER_WIDTH
  let cw : Int := Int.tdiv (ww - BORDER_WIDTH) (if cols = 0 then 1 else (cols : Int))
  gridRest wx wy BORDER_WIDTH cw ch (n : Int) (cols : Int) cy (-1) (rows : Int) 0 0 cs

/-- `tile` (monsterwm.c:1310-1314): dispatch through the `layout` array
(monsterwm.c:230-232), forcing MONOCLE when the desktop has a single
client; available height and top offset account for the panel. -/
def tile (mode : Nat) (ww wh wx wy master_size growth BORDER_WIDTH PANEL_HEIGHT : Int)
    (showpanel top_panel : Bool) (cs : List TClient) : List MoveResize :=
  match cs with
  | [] => []
  | _ =>
    let hh : Int := wh + (if showpanel then 0 else PANEL_HEIGHT)
    let cy : Int := if top_panel && showpanel then PANEL_HEIGHT else 0
    let m : Nat := if cs.tail = [] then MONOCLE else mode
    if m = TILE ∨ m = BSTACK then stack m ww master_size growth BORDER_WIDTH hh cy cs
    else if m = GRID then grid ww wx wy BORDER_WIDTH hh cy cs
    else monocle ww hh cy cs

/-! ### Scenario S1 (claim C3)

`setup` (monsterwm.c:1174-1178) derives the working area of the single
monitor from the screen size, and `setup_monitor` (monsterwm.c:1124-1136)
computes `master_size`.  Screen 1600×900, `SHOW_PANEL` true, `TOP_PANEL`
true, `PANEL_HEIGHT = 20`, `BORDER_WIDTH = 2`, `MASTER_SIZE = 0.52`
(= 13/25 exactly; the C `double` product `1598 * 0.52` also truncates to
830). -/

/-- `ww = screen->width_in_pixels - BORDER_WIDTH` (monsterwm.c:1176). -/
def s1ww : Int := 1600 - 2

/-- `wh = screen->height_in_pixels - PANEL_HEIGHT - BORDER_WIDTH`
with `SHOW_PANEL` (monsterwm.c:1177). -/
def s1wh : Int := 900 - 20 - 2

/-- `CM->master_size = CM->ww * MASTER_SIZE` for TILE mode
(monsterwm.c:1130), with `MASTER_SIZE = 0.52 = 13/25` and truncation to
`int`. -/
def s1master : Int := Int.tdiv (s1ww * 13) 25

/-- The three mapped windows of S1, in list order, with no flags set. -/
def s1clients : List TClient :=
  [⟨1, false, false, false⟩, ⟨2, false, false, false⟩, ⟨3, false, false, false⟩]

/-- The geometries the tiling pass of S1 assigns. -/
def s1calls : List MoveResize :=
  tile TILE s1ww s1wh 0 0 s1master 0 2 20 true true s1clients

/-- C3 counterexample: the claimed geometries
`W1 = (0,20,828,874), W2 = (832,20,764,434), W3 = (832,456,764,438)` are
not what the code computes for scenario S1 — the stack column starts at
`x = master_size = 830` (not 832), the first stack client is 435 high and
receives the remainder `d` (here 0), and the last is 437 high at
`y = 457`. -/
theorem stack_s1_cex :
    s1calls ≠
      [⟨1, 0, 20, 828, 874⟩, ⟨2, 832, 20, 764, 434⟩, ⟨3, 832, 456, 764, 438⟩] := by
  decide

/-- C3 amended: in scenario S1 (working area 1598×878 after borders and
panel, `master_size = 830`, growth 0) the tiling pass assigns exactly
`W1 = (0,20,828,874)`, `W2 = (830,20,764,435)`, `W3 = (830,457,764,437)`,
the first stack client `W2` absorbing the remainder `d = 878 mod 2 = 0`
(monsterwm.c:1234-1286, 1174-1178). -/
theorem stack_s1_geometries :
    s1ww = 1598 ∧ s1wh = 878 ∧ s1master = 830 ∧
    s1calls =
      [⟨1, 0, 20, 828, 874⟩, ⟨2, 830, 20, 764, 435⟩, ⟨3, 830, 457, 764, 437⟩] := by
  refine ⟨rfl, rfl, by decide, by decide⟩

/-! ### The client linked list: move_down / move_up (monsterwm.c:867-939)

The per-desktop client list is a NULL-terminated singly linked list of
heap nodes.  We model the heap as a successor map `nxt : Nat → Option Nat`
on client identities (C node addresses), together with the desktop's
`head` pointer and the `current` pointer.  Pointer assignments
(`p->next = ...`, `CM->head = ...`) become pointwise function updates,
performed in exactly the source order; pointer equality is equality of
identities.  `prev_client` (monsterwm.c:950-954) walks the list with a
fuel bound (any fuel at least the list length is exact). -/

namespace Chain

/-- The heap state seen by `move_down`/`move_up`: the desktop's `head`
pointer, the `next` field of every node, and `CM->current`. -/
structure LState where
  head : Option Nat
  nxt : Nat → Option Nat
  cur : Nat

/-- `a->next = v`. -/
def setNext (nxt : Nat → Option Nat) (a : Nat) (v : Option Nat) : Nat → Option Nat :=
  fun x => if x = a then v else nxt x

/-- The walk of `prev_client` (monsterwm.c:952):
`for (p=head; p->next && p->next != c; p=p->next); return p;`. -/
def walkPrev (nxt : Nat → Option Nat) (c : Nat) : Nat → Nat → Nat
  | 0, p => p
  | fuel + 1, p =>
    match nxt p with
    | none => p
    | some q => if q = c then p else walkPrev nxt c fuel q

/-- `prev_client` (monsterwm.c:950-954): NULL if `c` is NULL or the list
has fewer than two nodes (the C dereferences `head->next`, so a NULL head
is undefined behaviour there; we return NULL), else the walk result. -/
def prev_client (fuel : Nat) (s : LState) (c : Option Nat) : Option Nat :=
  match c, s.head with
  | none, _ => none
  | some _, none => none
  | some cc, some h =>
    match s.nxt h with
    | none => none
    | some _ => some (walkPrev s.nxt cc fuel h)

/-- `move_down` (monsterwm.c:867-900), transcribed assignment by
assignment.  `n = current->next ? current->next : head` (the C
dereferences a NULL head only in states where `prev_client` would already
have crashed; the `getD` default is never reached under the theorems'
hypotheses). -/
def move_down (fuel : Nat) (s : LState) : LState :=
  let n : Nat :=
    match s.nxt s.cur with
    | some x => x
    | none => s.head.getD 0
  match prev_client fuel s (some s.cur) with
  | none => s
  | some p =>
    let s1 : LState :=
      if s.head = some s.cur then { s with head := some n }
      else { s with nxt := setNext s.nxt p (s.nxt s.cur) }
    let s2 : LState :=
      { s1 with
        nxt := setNext s1.nxt s.cur
          (match s1.nxt s.cur with
           | some _ => s1.nxt n
           | none => some n) }
    if s2.nxt s.cur = s2.nxt n then { s2 with nxt := setNext s2.nxt n (some s.cur) }
    else { s2 with head := some s.cur }

/-- The `pp` walk of `move_up` (monsterwm.c:909):
`for (pp=head; pp && pp->next != p; pp=pp->next);`. -/
def walkPP (nxt : Nat → Option Nat) (p : Nat) : Nat → Option Nat → Option Nat
  | _, none => none
  | 0, some pp => some pp
  | fuel + 1, some pp =>
    if nxt pp = some p then some pp else walkPP nxt p fuel (nxt pp)

/-- `move_up` (monsterwm.c:904-939), transcribed assignment by
assignment; each pointer read refers to the state at the corresponding
program point (in particular `CM->head` in line 929 reads the head already
updated by line 921). -/
def move_up (fuel : Nat) (s : LState) : LState :=
  match prev_client fuel s (some s.cur) with
  | none => s
  | some p =>
    let pp : Option Nat :=
      match s.nxt p with
      | some _ => walkPP s.nxt p fuel s.head
      | none => none
    let s1 : LState :=
      match pp with
      | some q => { s with nxt := setNext s.nxt q (some s.cur) }
      | none =>
        { s with head := if s.head = some s.cur then s.nxt s.cur else some s.cur }
    let s2 : LState :=
      { s1 with
        nxt := setNext s1.nxt p
          (if s1.nxt s.cur = s1.head then some s.cur else s1.nxt s.cur) }
    if s2.nxt s.cur = s2.head then { s2 with nxt := setNext s2.nxt s.cur none }
    else { s2 with nxt := setNext s2.nxt s.cur (some p) }

/-- Read the list out of the heap by chasing `next` pointers. -/
def chain (nxt : Nat → Option Nat) : Nat → Option Nat → List Nat
  | 0, _ => []
  | _, none => []
  | fuel + 1, some a => a :: chain nxt fuel (nxt a)

/-- The successor map of the heap that stores the list `l` (the `next`
field of the first occurrence of each element). -/
def nxtOf : List Nat → Nat → Option Nat
  | [], _ => none
  | [_], _ => none
  | a :: b :: r, x => if x = a then some b else nxtOf (b :: r) x

/-- The heap holding exactly the list `l` with `current = c`. -/
def mkState (l : List Nat) (c : Nat) : LState :=
  ⟨l.head?, nxtOf l, c⟩

/-- The list stored in a heap state. -/
def stateList (fuel : Nat) (s : LState) : List Nat :=
  chain s.nxt fuel s.head

theorem setNext_self (nxt : Nat → Option Nat) (a : Nat) (v : Option Nat) :
    setNext nxt a v a = v := by
  simp [setNext]

theorem setNext_other (nxt : Nat → Option Nat) (a : Nat) (v : Option Nat)
    (x : Nat) (h : x ≠ a) : setNext nxt a v x = nxt x := by
  simp [setNext, h]

theorem nxtOf_not_mem : ∀ (l : List Nat) (x : Nat), x ∉ l → nxtOf l x = none := by
  intro l
  induction l with
  | nil => intro x _; rfl
  | cons a t ih =>
    intro x hx
    have hxa : x ≠ a := fun h => hx (h ▸ List.mem_cons_self a t)
    have hxt : x ∉ t := fun h => hx (List.mem_cons_of_mem a h)
    cases t with
    | nil => rfl
    | cons b r =>
      simp only [nxtOf, if_neg hxa]
      exact ih x hxt

theorem nxtOf_append : ∀ (pre : List Nat) (a : Nat) (post : List Nat), a ∉ pre →
    nxtOf (pre ++ a :: post) a = post.head? := by
  intro pre
  induction pre with
  | nil =>
    intro a post _
    cases post with
    | nil => rfl
    | cons b r => simp [nxtOf]
  | cons y pre ih =>
    intro a post ha
    have hay : a ≠ y := by
      intro h
      exact ha (h ▸ List.mem_cons_self y pre)
    have ha2 : a ∉ pre := fun h => ha (List.mem_cons_of_mem y h)
    have hne : pre ++ a :: post ≠ [] := by simp
    rw [List.cons_append]
    cases hzp : pre ++ a :: post with
    | nil => exact absurd hzp hne
    | cons z rest =>
      rw [show nxtOf (y :: z :: rest) a = if a = y then some z else nxtOf (z :: rest) a from rfl]
      rw [if_neg hay, ← hzp]
      exact ih a post ha2

/-- The master pointwise lemma: the successor of `x` only depends on the
head of what follows `x`. -/
theorem nxtOf_split_congr (P1 P2 M1 M2 : List Nat) (x : Nat)
    (h1 : x ∉ P1) (h2 : x ∉ P2) (hh : M1.head? = M2.head?) :
    nxtOf (P1 ++ x :: M1) x = nxtOf (P2 ++ x :: M2) x := by
  rw [nxtOf_append P1 x M1 h1, nxtOf_append P2 x M2 h2, hh]

theorem head?_append_eq (A M1 M2 : List Nat) (h : M1.head? = M2.head?) :
    (A ++ M1).head? = (A ++ M2).head? := by
  cases A with
  | nil => simpa using h
  | cons a t => simp

/-- The shape predicate of a well-formed NULL-terminated chain. -/
def IsChain (nxt : Nat → Option Nat) : List Nat → Prop
  | [] => True
  | [a] => nxt a = none
  | a :: b :: r => nxt a = some b ∧ IsChain nxt (b :: r)

theorem chain_of_isChain : ∀ (l : List Nat) (nxt : Nat → Option Nat) (fuel : Nat),
    IsChain nxt l → l.length ≤ fuel → chain nxt fuel l.head? = l := by
  intro l
  induction l with
  | nil =>
    intro nxt fuel _ _
    cases fuel <;> rfl
  | cons a t ih =>
    intro nxt fuel hc hf
    cases fuel with
    | zero => simp at hf
    | succ f =>
      simp only [List.head?_cons, chain]
      cases t with
      | nil =>
        have hna : nxt a = none := hc
        rw [hna]
        cases f <;> rfl
      | cons b r =>
        have hna : nxt a = some b := hc.1
        rw [hna]
        have : chain nxt f (b :: r).head? = b :: r :=
          ih nxt f hc.2 (by simpa using Nat.le_of_succ_le_succ hf)
        simpa using this

theorem isChain_congr : ∀ (l : List Nat) (nxt1 nxt2 : Nat → Option Nat),
    (∀ x ∈ l, nxt1 x = nxt2 x) → IsChain nxt1 l → IsChain nxt2 l := by
  intro l
  induction l with
  | nil => intro _ _ _ _; trivial
  | cons a t ih =>
    intro nxt1 nxt2 hag hc
    cases t with
    | nil =>
      show nxt2 a = none
      rw [← hag a (List.mem_cons_self a [])]
      exact hc
    | cons b r =>
      refine ⟨?_, ?_⟩
      · rw [← hag a (List.mem_cons_self a (b :: r))]
        exact hc.1
      · exact ih nxt1 nxt2 (fun x hx => hag x (List.mem_cons_of_mem a hx)) hc.2

theorem isChain_nxtOf : ∀ (l : List Nat), l.Nodup → IsChain (nxtOf l) l := by
  intro l
  induction l with
  | nil => intro _; trivial
  | cons a t ih =>
    intro hnd
    cases t with
    | nil => rfl
    | cons b r =>
      refine ⟨by simp [nxtOf], ?_⟩
      have hnd2 : (b :: r).Nodup := hnd.of_cons
      have hag : ∀ x ∈ b :: r, nxtOf (b :: r) x = nxtOf (a :: b :: r) x := by
        intro x hx
        have hxa : x ≠ a := by
          intro h
          subst h
          exact (List.nodup_cons.mp hnd).1 hx
        simp [nxtOf, if_neg hxa]
      exact isChain_congr (b :: r) (nxtOf (b :: r)) (nxtOf (a :: b :: r)) hag (ih hnd2)

/-- Reading back the heap of `l` yields `l`. -/
theorem stateList_mkState (l : List Nat) (c : Nat) (hnd : l.Nodup)
    (fuel : Nat) (hf : l.length ≤ fuel) : stateList fuel (mkState l c) = l :=
  chain_of_isChain l (nxtOf l) fuel (isChain_nxtOf l hnd) hf

/-- The `prev_client` walk started just before the segment
`u ++ p :: c :: post` stops at `p`, the node whose successor is `c`. -/
theorem walkPrev_finds : ∀ (u L pre : List Nat) (p c : Nat) (post : List Nat) (fuel : Nat),
    L = pre ++ (u ++ p :: c :: post) → L.Nodup → u.length + 1 ≤ fuel →
    walkPrev (nxtOf L) c fuel ((u ++ [p]).headD 0) = p := by
  intro u
  induction u with
  | nil =>
    intro L pre p c post fuel hL hnd hfuel
    cases fuel with
    | zero => omega
    | succ f =>
      have hL2 : L = pre ++ p :: c :: post := by simpa using hL
      have hp : p ∉ pre := by
        intro hmem
        rw [hL2] at hnd
        exact (List.disjoint_of_nodup_append hnd) hmem (List.mem_cons_self p (c :: post))
      have hnxtp : nxtOf L p = some c := by
        rw [hL2]
        exact nxtOf_append pre p (c :: post) hp
      simp [walkPrev, hnxtp]
  | cons x u ih =>
    intro L pre p c post fuel hL hnd hfuel
    cases fuel with
    | zero => omega
    | succ f =>
      have hL2 : L = pre ++ x :: (u ++ p :: c :: post) := by rw [hL]; simp
      have hx : x ∉ pre := by
        intro hmem
        rw [hL2] at hnd
        exact (List.disjoint_of_nodup_append hnd) hmem (List.mem_cons_self x _)
      have hnxtx : nxtOf L x = (u ++ p :: c :: post).head? := by
        rw [hL2]
        exact nxtOf_append pre x (u ++ p :: c :: post) hx
      have hndseg : (u ++ p :: c :: post).Nodup := by
        rw [hL2] at hnd
        exact (hnd.of_append_right).of_cons
      have hcp : c ≠ p := by
        have h1 : (p :: c :: post).Nodup := hndseg.of_append_right
        have := (List.nodup_cons.mp h1).1
        intro h
        exact this (h ▸ List.mem_cons_self c post)
      have hcu : c ∉ u := by
        intro hmem
        exact (List.disjoint_of_nodup_append hndseg) hmem (List.mem_cons_of_mem p (List.mem_cons_self c post))
      have hstep : walkPrev (nxtOf L) c (f + 1) ((x :: u ++ [p]).headD 0) =
          walkPrev (nxtOf L) c f ((u ++ [p]).headD 0) := by
        cases u with
        | nil =>
          have hw : nxtOf L x = some p := by rw [hnxtx]; rfl
          simp [walkPrev, hw, Ne.symm hcp]
        | cons z r =>
          have hw : nxtOf L x = some z := by rw [hnxtx]; rfl
          have hzc : z ≠ c := by
            intro h
            exact hcu (h ▸ List.mem_cons_self z r)
          simp [walkPrev, hw, hzc]
      rw [hstep]
      exact ih L (pre ++ [x]) p c post f (by rw [hL]; simp) hnd (by simpa using Nat.le_of_succ_le_succ hfuel)

/-- The `prev_client` walk never sees `c` as a successor and runs to the
last node when `c` occurs in none of the successor positions. -/
theorem walkPrev_to_last : ∀ (u L pre : List Nat) (a c : Nat) (fuel : Nat),
    L = pre ++ (u ++ [a]) → L.Nodup → c ∉ u.tail → c ≠ a → u.length + 1 ≤ fuel →
    walkPrev (nxtOf L) c fuel ((u ++ [a]).headD 0) = a := by
  intro u
  induction u with
  | nil =>
    intro L pre a c fuel hL hnd hct hca hfuel
    cases fuel with
    | zero => omega
    | succ f =>
      have hL2 : L = pre ++ a :: [] := by simpa using hL
      have ha : a ∉ pre := by
        intro hmem
        rw [hL2] at hnd
        exact (List.disjoint_of_nodup_append hnd) hmem (List.mem_cons_self a [])
      have hnxta : nxtOf L a = none := by
        rw [hL2]
        exact nxtOf_append pre a [] ha
      simp [walkPrev, hnxta]
  | cons x u ih =>
    intro L pre a c fuel hL hnd hct hca hfuel
    cases fuel with
    | zero => omega
    | succ f =>
      have hL2 : L = pre ++ x :: (u ++ [a]) := by rw [hL]; simp
      have hx : x ∉ pre := by
        intro hmem
        rw [hL2] at hnd
        exact (List.disjoint_of_nodup_append hnd) hmem (List.mem_cons_self x _)
      have hnxtx : nxtOf L x = (u ++ [a]).head? := by
        rw [hL2]
        exact nxtOf_append pre x (u ++ [a]) hx
      have hstep : walkPrev (nxtOf L) c (f + 1) ((x :: u ++ [a]).headD 0) =
          walkPrev (nxtOf L) c f ((u ++ [a]).headD 0) := by
        cases u with
        | nil =>
          have hw : nxtOf L x = some a := by rw [hnxtx]; rfl
          simp [walkPrev, hw, Ne.symm hca]
        | cons z r =>
          have hw : nxtOf L x = some z := by rw [hnxtx]; rfl
          have hzc : z ≠ c := by
            intro h
            apply hct
            rw [h]
            exact List.mem_cons_self c r
          simp [walkPrev, hw, hzc]
      rw [hstep]
      refine ih L (pre ++ [x]) a c f (by rw [hL]; simp) hnd ?_ hca (by simpa using Nat.le_of_succ_le_succ hfuel)
      cases u with
      | nil => simp
      | cons z r =>
        intro hmem
        exact hct (List.mem_cons_of_mem z hmem)

/-- The `pp` walk of `move_up` stops at `q`, the node whose successor is
`p`. -/
theorem walkPP_finds : ∀ (u L pre : List Nat) (q p : Nat) (post : List Nat) (fuel : Nat),
    L = pre ++ (u ++ q :: p :: post) → L.Nodup → u.length + 1 ≤ fuel →
    walkPP (nxtOf L) p fuel (some ((u ++ [q]).headD 0)) = some q := by
  intro u
  induction u with
  | nil =>
    intro L pre q p post fuel hL hnd hfuel
    cases fuel with
    | zero => omega
    | succ f =>
      have hL2 : L = pre ++ q :: p :: post := by simpa using hL
      have hq : q ∉ pre := by
        intro hmem
        rw [hL2] at hnd
        exact (List.disjoint_of_nodup_append hnd) hmem (List.mem_cons_self q (p :: post))
      have hnxtq : nxtOf L q = some p := by
        rw [hL2]
        exact nxtOf_append pre q (p :: post) hq
      simp [walkPP, hnxtq]
  | cons x u ih =>
    intro L pre q p post fuel hL hnd hfuel
    cases fuel with
    | zero => omega
    | succ f =>
      have hL2 : L = pre ++ x :: (u ++ q :: p :: post) := by rw [hL]; simp
      have hx : x ∉ pre := by
        intro hmem
        rw [hL2] at hnd
        exact (List.disjoint_of_nodup_append hnd) hmem (List.mem_cons_self x _)
      have hnxtx : nxtOf L x = (u ++ q :: p :: post).head? := by
        rw [hL2]
        exact nxtOf_append pre x (u ++ q :: p :: post) hx
      have hndseg : (u ++ q :: p :: post).Nodup := by
        rw [hL2] at hnd
        exact (hnd.of_append_right).of_cons
      have hpq : p ≠ q := by
        have h1 : (q :: p :: post).Nodup := hndseg.of_append_right
        have := (List.nodup_cons.mp h1).1
        intro h
        exact this (h ▸ List.mem_cons_self p post)
      have hpu : p ∉ u := by
        intro hmem
        exact (List.disjoint_of_nodup_append hndseg) hmem (List.mem_cons_of_mem q (List.mem_cons_self p post))
      have hstep : walkPP (nxtOf L) p (f + 1) (some ((x :: u ++ [q]).headD 0)) =
          walkPP (nxtOf L) p f (nxtOf L x) := by
        cases u with
        | nil =>
          have hw : nxtOf L x = some q := by rw [hnxtx]; rfl
          have hne : nxtOf L x ≠ some p := by rw [hw]; simp [Ne.symm hpq]
          simp [walkPP, hne]
        | cons z r =>
          have hw : nxtOf L x = some z := by rw [hnxtx]; rfl
          have hzp : z ≠ p := by
            intro h
            exact hpu (h ▸ List.mem_cons_self z r)
          have hne : nxtOf L x ≠ some p := by rw [hw]; simp [hzp]
          simp [walkPP, hne]
      rw [hstep]
      have hw2 : nxtOf L x = some ((u ++ [q]).headD 0) := by
        rw [hnxtx]
        cases u <;> rfl
      rw [hw2]
      exact ih L (pre ++ [x]) q p post f (by rw [hL]; simp) hnd (by simpa using Nat.le_of_succ_le_succ hfuel)

/-- The `pp` walk returns NULL when no node's successor is `p` (i.e. `p`
is the head): it runs past the last node. -/
theorem walkPP_to_none : ∀ (u L pre : List Nat) (a p : Nat) (fuel : Nat),
    L = pre ++ (u ++ [a]) → L.Nodup → p ∉ u.tail → p ≠ a → u.length + 2 ≤ fuel →
    walkPP (nxtOf L) p fuel (some ((u ++ [a]).headD 0)) = none := by
  intro u
  induction u with
  | nil =>
    intro L pre a p fuel hL hnd hpt hpa hfuel
    cases fuel with
    | zero => omega
    | succ f =>
      have hL2 : L = pre ++ a :: [] := by simpa using hL
      have ha : a ∉ pre := by
        intro hmem
        rw [hL2] at hnd
        exact (List.disjoint_of_nodup_append hnd) hmem (List.mem_cons_self a [])
      have hnxta : nxtOf L a = none := by
        rw [hL2]
        exact nxtOf_append pre a [] ha
      have hne : nxtOf L a ≠ some p := by rw [hnxta]; simp
      simp only [List.nil_append, List.headD_cons]
      rw [show walkPP (nxtOf L) p (f + 1) (some a) =
        if nxtOf L a = some p then some a else walkPP (nxtOf L) p f (nxtOf L a) from rfl]
      rw [if_neg hne, hnxta]
      cases f <;> rfl
  | cons x u ih =>
    intro L pre a p fuel hL hnd hpt hpa hfuel
    cases fuel with
    | zero => omega
    | succ f =>
      have hL2 : L = pre ++ x :: (u ++ [a]) := by rw [hL]; simp
      have hx : x ∉ pre := by
        intro hmem
        rw [hL2] at hnd
        exact (List.disjoint_of_nodup_append hnd) hmem (List.mem_cons_self x _)
      have hnxtx : nxtOf L x = (u ++ [a]).head? := by
        rw [hL2]
        exact nxtOf_append pre x (u ++ [a]) hx
      have hne : nxtOf L x ≠ some p := by
        rw [hnxtx]
        cases u with
        | nil =>
          simp [Ne.symm hpa]
        | cons z r =>
          have hzp : z ≠ p := by
            intro h
            apply hpt
            rw [h]
            exact List.mem_cons_self p r
          simp [hzp]
      have hw2 : nxtOf L x = some ((u ++ [a]).headD 0) := by
        rw [hnxtx]
        cases u <;> rfl
      have hstep : walkPP (nxtOf L) p (f + 1) (some ((x :: u ++ [a]).headD 0)) =
          walkPP (nxtOf L) p f (some ((u ++ [a]).headD 0)) := by
        simp only [List.cons_append, List.headD_cons]
        rw [show walkPP (nxtOf L) p (f + 1) (some x) =
          if nxtOf L x = some p then some x else walkPP (nxtOf L) p f (nxtOf L x) from rfl]
        rw [if_neg hne, hw2]
      rw [hstep]
      refine ih L (pre ++ [x]) a p f (by rw [hL]; simp) hnd ?_ hpa
        (by simp only [List.length_cons] at hfuel; omega)
      cases u with
      | nil => simp
      | cons z r =>
        intro hmem
        exact hpt (List.mem_cons_of_mem z hmem)

theorem lstate_ext (s t : LState) (h1 : s.head = t.head) (h2 : s.nxt = t.nxt)
    (h3 : s.cur = t.cur) : s = t := by
  cases s; cases t
  cases h1; cases h2; cases h3
  rfl

/-- `prev_client` on the heap of `cur :: T` with `cur` the head returns
the last node of the list. -/
theorem prev_client_head (T : List Nat) (cur : Nat) (fuel : Nat)
    (hnd : (cur :: T).Nodup) (hT : T ≠ []) (hfuel : (cur :: T).length ≤ fuel) :
    prev_client fuel (mkState (cur :: T) cur) (some cur) = some (T.getLast hT) := by
  have hcurT : cur ∉ T := (List.nodup_cons.mp hnd).1
  obtain ⟨b, r, hE⟩ : ∃ b r, T = b :: r := by
    cases T with
    | nil => exact absurd rfl hT
    | cons b r => exact ⟨b, r, rfl⟩
  · have hnxtc : nxtOf (cur :: T) cur = some b := by rw [hE]; simp [nxtOf]
    have hred : prev_client fuel (mkState (cur :: T) cur) (some cur) =
        match nxtOf (cur :: T) cur with
        | none => none
        | some _ => some (walkPrev (nxtOf (cur :: T)) cur fuel cur) := rfl
    rw [hred, hnxtc]
    show some (walkPrev (nxtOf (cur :: T)) cur fuel cur) = some (T.getLast hT)
    congr 1
    have hsplit : cur :: T = [] ++ ((cur :: T.dropLast) ++ [T.getLast hT]) := by
      simp [List.dropLast_append_getLast hT]
    have hstart : ((cur :: T.dropLast) ++ [T.getLast hT]).headD 0 = cur := by simp
    have hct : cur ∉ (cur :: T.dropLast).tail := by
      intro hmem
      exact hcurT ((List.dropLast_sublist T).subset hmem)
    have hca : cur ≠ T.getLast hT := by
      intro h
      exact hcurT (h ▸ List.getLast_mem hT)
    have hflen : (cur :: T.dropLast).length + 1 ≤ fuel := by
      have hdl := List.length_dropLast T
      have hTlen : 0 < T.length := List.length_pos.mpr hT
      simp only [List.length_cons] at hfuel ⊢
      omega
    have := walkPrev_to_last (cur :: T.dropLast) (cur :: T) [] (T.getLast hT) cur fuel
      hsplit hnd hct hca hflen
    rw [hstart] at this
    exact this

/-- `prev_client` on the heap of `A ++ P :: cur :: V` returns `P`, the
node just before `cur`. -/
theorem prev_client_mid (A : List Nat) (P cur : Nat) (V : List Nat) (fuel : Nat)
    (hnd : (A ++ P :: cur :: V).Nodup) (hfuel : A.length + 2 ≤ fuel) :
    prev_client fuel (mkState (A ++ P :: cur :: V) cur) (some cur) = some P := by
  cases A with
  | nil =>
    have hnxtP : nxtOf (P :: cur :: V) P = some cur := by simp [nxtOf]
    have hred : prev_client fuel (mkState (P :: cur :: V) cur) (some cur) =
        match nxtOf (P :: cur :: V) P with
        | none => none
        | some _ => some (walkPrev (nxtOf (P :: cur :: V)) cur fuel P) := rfl
    simp only [List.nil_append]
    rw [hred, hnxtP]
    show some (walkPrev (nxtOf (P :: cur :: V)) cur fuel P) = some P
    congr 1
    have := walkPrev_finds [] (P :: cur :: V) [] P cur V fuel (by simp)
      (by simpa using hnd) (by omega)
    simpa using this
  | cons z A1 =>
    have hne : A1 ++ P :: cur :: V ≠ [] := by simp
    cases hE : A1 ++ P :: cur :: V with
    | nil => exact absurd hE hne
    | cons w rest =>
      have hshape : (z :: A1) ++ P :: cur :: V = z :: w :: rest := by
        rw [List.cons_append, hE]
      have hnxtz : nxtOf ((z :: A1) ++ P :: cur :: V) z = some w := by
        rw [hshape]; simp [nxtOf]
      have hred : prev_client fuel (mkState ((z :: A1) ++ P :: cur :: V) cur) (some cur) =
          match nxtOf ((z :: A1) ++ P :: cur :: V) z with
          | none => none
          | some _ => some (walkPrev (nxtOf ((z :: A1) ++ P :: cur :: V)) cur fuel z) := rfl
      rw [hred, hnxtz]
      show some (walkPrev (nxtOf ((z :: A1) ++ P :: cur :: V)) cur fuel z) = some P
      congr 1
      have := walkPrev_finds (z :: A1) ((z :: A1) ++ P :: cur :: V) [] P cur V fuel
        (by simp) hnd (by simp only [List.length_cons] at hfuel ⊢; omega)
      simpa using this

/-- Unfolding of `move_down` once `prev_client` and `current->next` are
known. -/
theorem move_down_eq (fuel : Nat) (s : LState) (p nv : Nat)
    (hp : prev_client fuel s (some s.cur) = some p)
    (hn : s.nxt s.cur = some nv) :
    move_down fuel s =
      (let s1 := if s.head = some s.cur then { s with head := some nv }
                 else { s with nxt := setNext s.nxt p (some nv) };
       let v2 := match s1.nxt s.cur with
                 | some _ => s1.nxt nv
                 | none => some nv;
       let s2 := { s1 with nxt := setNext s1.nxt s.cur v2 };
       if s2.nxt s.cur = s2.nxt nv then { s2 with nxt := setNext s2.nxt nv (some s.cur) }
       else { s2 with head := some s.cur }) := by
  unfold move_down
  rw [hp, hn]

/-- The branch of `move_up` taken once `prev_client` has returned a
non-NULL `p` (proof infrastructure: definitionally that branch of
`move_up`). -/
def moveUpBody (fuel : Nat) (s : LState) (p : Nat) : LState :=
  let pp : Option Nat :=
    match s.nxt p with
    | some _ => walkPP s.nxt p fuel s.head
    | none => none
  let s1 : LState :=
    match pp with
    | some q => { s with nxt := setNext s.nxt q (some s.cur) }
    | none =>
      { s with head := if s.head = some s.cur then s.nxt s.cur else some s.cur }
  let v2 := if s1.nxt s.cur = s1.head then some s.cur else s1.nxt s.cur
  let s2 := { s1 with nxt := setNext s1.nxt p v2 }
  if s2.nxt s.cur = s2.head then { s2 with nxt := setNext s2.nxt s.cur none }
  else { s2 with nxt := setNext s2.nxt s.cur (some p) }

theorem move_up_some (fuel : Nat) (s : LState) (p : Nat)
    (hp : prev_client fuel s (some s.cur) = some p) :
    move_up fuel s = moveUpBody fuel s p := by
  unfold move_up moveUpBody
  rw [hp]

/-- Unfolding of `move_up` in the case where `p` is the last node
(`p->next == NULL`), so the `pp` walk is skipped and `pp = NULL`. -/
theorem move_up_eq_noPP (fuel : Nat) (s : LState) (p : Nat)
    (hp : prev_client fuel s (some s.cur) = some p)
    (hw : s.nxt p = none) :
    move_up fuel s =
      (let s1 : LState :=
         { s with head := if s.head = some s.cur then s.nxt s.cur else some s.cur };
       let v2 := if s1.nxt s.cur = s1.head then some s.cur else s1.nxt s.cur;
       let s2 := { s1 with nxt := setNext s1.nxt p v2 };
       if s2.nxt s.cur = s2.head then { s2 with nxt := setNext s2.nxt s.cur none }
       else { s2 with nxt := setNext s2.nxt s.cur (some p) }) := by
  rw [move_up_some fuel s p hp]
  unfold moveUpBody
  rw [hw]

/-- Unfolding of `move_up` when the `pp` walk finds the node `q` whose
successor is `p`. -/
theorem move_up_eq_pp_some (fuel : Nat) (s : LState) (p w q : Nat)
    (hp : prev_client fuel s (some s.cur) = some p)
    (hw : s.nxt p = some w)
    (hpq : walkPP s.nxt p fuel s.head = some q) :
    move_up fuel s =
      (let s1 : LState := { s with nxt := setNext s.nxt q (some s.cur) };
       let v2 := if s1.nxt s.cur = s1.head then some s.cur else s1.nxt s.cur;
       let s2 := { s1 with nxt := setNext s1.nxt p v2 };
       if s2.nxt s.cur = s2.head then { s2 with nxt := setNext s2.nxt s.cur none }
       else { s2 with nxt := setNext s2.nxt s.cur (some p) }) := by
  rw [move_up_some fuel s p hp]
  unfold moveUpBody
  rw [hw, hpq]

/-- Unfolding of `move_up` when the `pp` walk runs past the end
(`p` is the head, so `pp = NULL`). -/
theorem move_up_eq_pp_none (fuel : Nat) (s : LState) (p w : Nat)
    (hp : prev_client fuel s (some s.cur) = some p)
    (hw : s.nxt p = some w)
    (hpq : walkPP s.nxt p fuel s.head = none) :
    move_up fuel s =
      (let s1 : LState :=
         { s with head := if s.head = some s.cur then s.nxt s.cur else some s.cur };
       let v2 := if s1.nxt s.cur = s1.head then some s.cur else s1.nxt s.cur;
       let s2 := { s1 with nxt := setNext s1.nxt p v2 };
       if s2.nxt s.cur = s2.head then { s2 with nxt := setNext s2.nxt s.cur none }
       else { s2 with nxt := setNext s2.nxt s.cur (some p) }) := by
  rw [move_up_some fuel s p hp]
  unfold moveUpBody
  rw [hw, hpq]

/-- `move_down` on the heap of `cur :: n :: B` when `current` is the
head: current swaps with its successor and the head pointer moves to `n`
(monsterwm.c:879, 887, 898). -/
theorem move_down_head (n cur : Nat) (B : List Nat) (fuel : Nat)
    (hnd : (cur :: n :: B).Nodup) (hfuel : (cur :: n :: B).length ≤ fuel) :
    move_down fuel (mkState (cur :: n :: B) cur) = mkState (n :: cur :: B) cur := by
  have hc1 := List.nodup_cons.mp hnd
  have hcurn : cur ≠ n := fun h => hc1.1 (h ▸ List.mem_cons_self n B)
  have hcurB : cur ∉ B := fun h => hc1.1 (List.mem_cons_of_mem n h)
  have hc2 := List.nodup_cons.mp hc1.2
  have hnB : n ∉ B := hc2.1
  have hnxtcur : nxtOf (cur :: n :: B) cur = some n := by simp [nxtOf]
  have hnxtn : nxtOf (cur :: n :: B) n = B.head? := by
    have := nxtOf_append [cur] n B (by simp [Ne.symm hcurn])
    simpa using this
  have hprev := prev_client_head (n :: B) cur fuel hnd (by simp) hfuel
  rw [move_down_eq fuel (mkState (cur :: n :: B) cur)
    ((n :: B).getLast (by simp)) n hprev hnxtcur]
  simp only [mkState, List.head?_cons, ite_true]
  rw [hnxtcur]
  simp only []
  rw [hnxtn]
  have hcn : n ≠ cur := Ne.symm hcurn
  simp only [setNext_self, setNext_other _ _ _ n hcn]
  rw [hnxtn, if_pos rfl]
  refine lstate_ext _ _ rfl ?_ rfl
  funext x
  show setNext (setNext (nxtOf (cur :: n :: B)) cur B.head?) n (some cur) x =
    nxtOf (n :: cur :: B) x
  by_cases hxn : x = n
  · subst hxn
    rw [setNext_self]
    simp [nxtOf]
  · rw [setNext_other _ _ _ _ hxn]
    by_cases hxc : x = cur
    · subst hxc
      rw [setNext_self]
      have := nxtOf_append [n] x B (by simp [hxn])
      simpa using this.symm
    · rw [setNext_other _ _ _ _ hxc]
      by_cases hxB : x ∈ B
      · obtain ⟨B1, B2, rfl⟩ := List.append_of_mem hxB
        have hndB : (B1 ++ x :: B2).Nodup := hc2.2
        have hxB1 : x ∉ B1 := by
          intro hmem
          exact (List.disjoint_of_nodup_append hndB) hmem (List.mem_cons_self x B2)
        have h1 : nxtOf (cur :: n :: (B1 ++ x :: B2)) x = B2.head? := by
          have := nxtOf_append (cur :: n :: B1) x B2
            (by simp [hxc, hxn, hxB1, List.mem_cons])
          simpa using this
        have h2 : nxtOf (n :: cur :: (B1 ++ x :: B2)) x = B2.head? := by
          have := nxtOf_append (n :: cur :: B1) x B2
            (by simp [hxc, hxn, hxB1, List.mem_cons])
          simpa using this
        rw [h1, h2]
      · rw [nxtOf_not_mem _ _ (by simp [hxc, hxn, hxB, List.mem_cons]),
            nxtOf_not_mem _ _ (by simp [hxc, hxn, hxB, List.mem_cons])]

/-- `move_down` on an interior `current`: swap with the successor via
`p->next` surgery (monsterwm.c:879, 887, 898). -/
theorem move_down_mid (A0 : List Nat) (P cur n : Nat) (B : List Nat) (fuel : Nat)
    (hnd : (A0 ++ P :: cur :: n :: B).Nodup)
    (hfuel : (A0 ++ P :: cur :: n :: B).length ≤ fuel) :
    move_down fuel (mkState (A0 ++ P :: cur :: n :: B) cur) =
      mkState (A0 ++ P :: n :: cur :: B) cur := by
  have hdisj := List.disjoint_of_nodup_append hnd
  have hndR : (P :: cur :: n :: B).Nodup := hnd.of_append_right
  have hr1 := List.nodup_cons.mp hndR
  have hr2 := List.nodup_cons.mp hr1.2
  have hr3 := List.nodup_cons.mp hr2.2
  have hPA0 : P ∉ A0 := fun h => hdisj h (List.mem_cons_self P _)
  have hcurA0 : cur ∉ A0 := fun h =>
    hdisj h (List.mem_cons_of_mem P (List.mem_cons_self cur _))
  have hnA0 : n ∉ A0 := fun h =>
    hdisj h (List.mem_cons_of_mem P (List.mem_cons_of_mem cur (List.mem_cons_self n B)))
  have hPc : P ≠ cur := fun h => hr1.1 (h ▸ List.mem_cons_self cur _)
  have hPn : P ≠ n := by
    intro h
    exact hr1.1 (by rw [h]; exact List.mem_cons_of_mem cur (List.mem_cons_self n B))
  have hPB : P ∉ B := fun h =>
    hr1.1 (List.mem_cons_of_mem cur (List.mem_cons_of_mem n h))
  have hcn : cur ≠ n := fun h => hr2.1 (h ▸ List.mem_cons_self n B)
  have hcB : cur ∉ B := fun h => hr2.1 (List.mem_cons_of_mem n h)
  have hnB : n ∉ B := hr3.1
  have hndB : B.Nodup := hr3.2
  have hnxtcur : nxtOf (A0 ++ P :: cur :: n :: B) cur = some n := by
    have := nxtOf_append (A0 ++ [P]) cur (n :: B)
      (by simp [hcurA0, Ne.symm hPc])
    simpa using this
  have hnxtn : nxtOf (A0 ++ P :: cur :: n :: B) n = B.head? := by
    have := nxtOf_append (A0 ++ [P, cur]) n B
      (by simp [hnA0, Ne.symm hPn, Ne.symm hcn, List.mem_cons])
    simpa using this
  have hprev := prev_client_mid A0 P cur (n :: B) fuel hnd
    (by simp only [List.length_append, List.length_cons] at hfuel ⊢; omega)
  rw [move_down_eq fuel (mkState (A0 ++ P :: cur :: n :: B) cur) P n hprev hnxtcur]
  simp only [mkState]
  have hheadne : (A0 ++ P :: cur :: n :: B).head? ≠ some cur := by
    cases A0 with
    | nil => simp [hPc]
    | cons z A1 =>
      simp only [List.cons_append, List.head?_cons]
      intro h
      have hz : z = cur := Option.some.inj h
      exact hcurA0 (by rw [← hz]; exact List.mem_cons_self z A1)
  rw [if_neg hheadne]
  simp only []
  have hcP : cur ≠ P := Ne.symm hPc
  have hnP : n ≠ P := Ne.symm hPn
  have hnc : n ≠ cur := Ne.symm hcn
  simp only [setNext_self, setNext_other _ _ _ cur hcP, setNext_other _ _ _ n hnP,
    setNext_other _ _ _ n hnc]
  rw [hnxtcur]
  simp only [hnxtn, ite_true]
  refine lstate_ext _ _ ?_ ?_ rfl
  · exact head?_append_eq A0 (P :: cur :: n :: B) (P :: n :: cur :: B) rfl
  funext x
  show setNext (setNext (setNext (nxtOf (A0 ++ P :: cur :: n :: B)) P (some n)) cur
      B.head?) n (some cur) x = nxtOf (A0 ++ P :: n :: cur :: B) x
  by_cases hxn : x = n
  · subst hxn
    rw [setNext_self]
    have := nxtOf_append (A0 ++ [P]) x (cur :: B) (by simp [hnA0, hnP])
    simpa using this.symm
  · rw [setNext_other _ _ _ _ hxn]
    by_cases hxc : x = cur
    · subst hxc
      rw [setNext_self]
      have := nxtOf_append (A0 ++ [P, n]) x B
        (by simp [hcurA0, hcP, hxn, List.mem_cons])
      simpa using this.symm
    · rw [setNext_other _ _ _ _ hxc]
      by_cases hxP : x = P
      · subst hxP
        rw [setNext_self]
        have := nxtOf_append A0 x (n :: cur :: B) hPA0
        simpa using this.symm
      · rw [setNext_other _ _ _ _ hxP]
        by_cases hxA : x ∈ A0
        · obtain ⟨A1, A2, rfl⟩ := List.append_of_mem hxA
          have hxA1 : x ∉ A1 := by
            intro hmem
            have hndA : (A1 ++ x :: A2).Nodup := hnd.of_append_left
            exact (List.disjoint_of_nodup_append hndA) hmem (List.mem_cons_self x A2)
          have h1 : nxtOf ((A1 ++ x :: A2) ++ P :: cur :: n :: B) x =
              (A2 ++ P :: cur :: n :: B).head? := by
            have := nxtOf_append A1 x (A2 ++ P :: cur :: n :: B) hxA1
            simpa using this
          have h2 : nxtOf ((A1 ++ x :: A2) ++ P :: n :: cur :: B) x =
              (A2 ++ P :: n :: cur :: B).head? := by
            have := nxtOf_append A1 x (A2 ++ P :: n :: cur :: B) hxA1
            simpa using this
          rw [h1, h2]
          exact head?_append_eq A2 (P :: cur :: n :: B) (P :: n :: cur :: B) rfl
        · by_cases hxB : x ∈ B
          · obtain ⟨B1, B2, rfl⟩ := List.append_of_mem hxB
            have hxB1 : x ∉ B1 := by
              intro hmem
              exact (List.disjoint_of_nodup_append hndB) hmem (List.mem_cons_self x B2)
            have h1 : nxtOf (A0 ++ P :: cur :: n :: (B1 ++ x :: B2)) x = B2.head? := by
              have := nxtOf_append (A0 ++ P :: cur :: n :: B1) x B2
                (by simp [hxA, hxP, hxc, hxn, hxB1, List.mem_cons])
              simpa using this
            have h2 : nxtOf (A0 ++ P :: n :: cur :: (B1 ++ x :: B2)) x = B2.head? := by
              have := nxtOf_append (A0 ++ P :: n :: cur :: B1) x B2
                (by simp [hxA, hxP, hxc, hxn, hxB1, List.mem_cons])
              simpa using this
            rw [h1, h2]
          · rw [nxtOf_not_mem _ _ (by simp [hxA, hxP, hxc, hxn, hxB, List.mem_cons]),
                nxtOf_not_mem _ _ (by simp [hxA, hxP, hxc, hxn, hxB, List.mem_cons])]

theorem nxtOf_ne_self (l : List Nat) (hnd : l.Nodup) (x : Nat) :
    nxtOf l x ≠ some x := by
  by_cases hx : x ∈ l
  · obtain ⟨u, v, rfl⟩ := List.append_of_mem hx
    have hxu : x ∉ u := by
      intro hmem
      exact (List.disjoint_of_nodup_append hnd) hmem (List.mem_cons_self x v)
    rw [nxtOf_append u x v hxu]
    intro h
    have hxv : x ∈ v := by
      cases v with
      | nil => simp at h
      | cons b r =>
        simp only [List.head?_cons, Option.some.injEq] at h
        rw [h]
        exact List.mem_cons_self x r
    have hndv : (x :: v).Nodup := hnd.of_append_right
    exact (List.nodup_cons.mp hndv).1 hxv
  · rw [nxtOf_not_mem l x hx]
    simp

theorem head?_ne_some_of_not_mem (v : List Nat) (x : Nat) (hx : x ∉ v) :
    v.head? ≠ some x := by
  cases v with
  | nil => simp
  | cons b r =>
    intro h
    have hb : b = x := Option.some.inj h
    subst hb
    exact hx (List.mem_cons_self b r)

theorem head?_eq_headD (u : List Nat) (a : Nat) (v : List Nat) :
    (u ++ a :: v).head? = some ((u ++ [a]).headD 0) := by
  cases u <;> simp

theorem headD_concat_mem (u : List Nat) (a : Nat) :
    (u ++ [a]).headD 0 ∈ u ++ [a] := by
  cases u with
  | nil => simp
  | cons b r => simp

/-- Unfolding of `move_down` when `current` is the last node
(`current->next == NULL`, so `n = head`). -/
theorem move_down_eq_none (fuel : Nat) (s : LState) (p : Nat)
    (hp : prev_client fuel s (some s.cur) = some p)
    (hn : s.nxt s.cur = none) :
    move_down fuel s =
      (let nv := s.head.getD 0;
       let s1 := if s.head = some s.cur then { s with head := some nv }
                 else { s with nxt := setNext s.nxt p none };
       let v2 := match s1.nxt s.cur with
                 | some _ => s1.nxt nv
                 | none => some nv;
       let s2 := { s1 with nxt := setNext s1.nxt s.cur v2 };
       if s2.nxt s.cur = s2.nxt nv then { s2 with nxt := setNext s2.nxt nv (some s.cur) }
       else { s2 with head := some s.cur }) := by
  unfold move_down
  rw [hp, hn]

/-- The `pp` walk started at the head finds no predecessor of the head. -/
theorem walkPP_head_none (p : Nat) (T : List Nat) (fuel : Nat)
    (hnd : (p :: T).Nodup) (hfuel : (p :: T).length + 1 ≤ fuel) :
    walkPP (nxtOf (p :: T)) p fuel (some p) = none := by
  have hpT : p ∉ T := (List.nodup_cons.mp hnd).1
  cases hT : T with
  | nil =>
    subst hT
    cases fuel with
    | zero => omega
    | succ f =>
      have hnone : nxtOf [p] p = none := rfl
      have hne : nxtOf [p] p ≠ some p := by rw [hnone]; simp
      rw [show walkPP (nxtOf [p]) p (f + 1) (some p) =
        (if nxtOf [p] p = some p then some p
         else walkPP (nxtOf [p]) p f (nxtOf [p] p)) from rfl]
      rw [if_neg hne, hnone]
      cases f <;> rfl
  | cons b r =>
    subst hT
    have hTne : (b :: r : List Nat) ≠ [] := by simp
    have hsplit : p :: b :: r = [] ++ ((p :: (b :: r).dropLast) ++ [(b :: r).getLast hTne]) := by
      simp [List.dropLast_append_getLast hTne]
    have hpt : p ∉ (p :: (b :: r).dropLast).tail := by
      intro hmem
      exact hpT ((List.dropLast_sublist (b :: r)).subset hmem)
    have hpa : p ≠ (b :: r).getLast hTne := by
      intro h
      exact hpT (h ▸ List.getLast_mem hTne)
    have hflen : (p :: (b :: r).dropLast).length + 2 ≤ fuel := by
      have hdl := List.length_dropLast (b :: r)
      simp only [List.length_cons] at hfuel hdl ⊢
      omega
    have := walkPP_to_none (p :: (b :: r).dropLast) (p :: b :: r) []
      ((b :: r).getLast hTne) p fuel hsplit hnd hpt hpa hflen
    simpa using this

/-- `move_down` when `current` is the last node: `n` is the head and the
whole list rotates so `current` becomes the new head (monsterwm.c:869,
887, 898). -/
theorem move_down_tail (A0 : List Nat) (P cur : Nat) (fuel : Nat)
    (hnd : (A0 ++ [P, cur]).Nodup)
    (hfuel : (A0 ++ [P, cur]).length ≤ fuel) :
    move_down fuel (mkState (A0 ++ [P, cur]) cur) =
      mkState (cur :: (A0 ++ [P])) cur := by
  have hdisj := List.disjoint_of_nodup_append hnd
  have hndR : ([P, cur] : List Nat).Nodup := hnd.of_append_right
  have hPc : P ≠ cur := by
    intro h
    have := (List.nodup_cons.mp hndR).1
    exact this (h ▸ List.mem_cons_self cur [])
  have hPA0 : P ∉ A0 := fun h => hdisj h (List.mem_cons_self P [cur])
  have hcurA0 : cur ∉ A0 := fun h =>
    hdisj h (List.mem_cons_of_mem P (List.mem_cons_self cur []))
  have hcP : cur ≠ P := Ne.symm hPc
  have hnxtcur : nxtOf (A0 ++ [P, cur]) cur = none := by
    have := nxtOf_append (A0 ++ [P]) cur [] (by simp [hcurA0, hcP])
    simpa using this
  have hprev : prev_client fuel (mkState (A0 ++ [P, cur]) cur) (some cur) = some P := by
    have := prev_client_mid A0 P cur [] fuel (by simpa using hnd)
      (by simp only [List.length_append, List.length_cons] at hfuel ⊢; omega)
    simpa using this
  rw [move_down_eq_none fuel (mkState (A0 ++ [P, cur]) cur) P hprev hnxtcur]
  simp only [mkState]
  have hheadne : (A0 ++ [P, cur]).head? ≠ some cur := by
    cases A0 with
    | nil => simp [hPc]
    | cons z A1 =>
      simp only [List.cons_append, List.head?_cons]
      intro h
      have hz : z = cur := Option.some.inj h
      exact hcurA0 (by rw [← hz]; exact List.mem_cons_self z A1)
  rw [if_neg hheadne]
  simp only [setNext_self, setNext_other _ _ _ cur hcP]
  rw [hnxtcur]
  simp only []
  have hYval : ((A0 ++ [P, cur]).head?).getD 0 = (A0 ++ [P]).headD 0 := by
    cases A0 <;> simp
  rw [hYval]
  have hYmem : (A0 ++ [P]).headD 0 ∈ A0 ++ [P] := headD_concat_mem A0 P
  have hYc : (A0 ++ [P]).headD 0 ≠ cur := by
    intro h
    rcases List.mem_append.mp hYmem with hm | hm
    · exact hcurA0 (h ▸ hm)
    · simp only [List.mem_singleton] at hm
      exact hPc (by rw [← hm, h])
  have hcond : setNext (setNext (nxtOf (A0 ++ [P, cur])) P none) cur
      (some ((A0 ++ [P]).headD 0)) ((A0 ++ [P]).headD 0) ≠
      some ((A0 ++ [P]).headD 0) := by
    rw [setNext_other _ _ _ _ hYc]
    by_cases hYP : (A0 ++ [P]).headD 0 = P
    · rw [hYP, setNext_self]
      simp
    · rw [setNext_other _ _ _ _ hYP]
      exact nxtOf_ne_self (A0 ++ [P, cur]) hnd ((A0 ++ [P]).headD 0)
  rw [if_neg (Ne.symm hcond)]
  refine lstate_ext _ _ rfl ?_ rfl
  funext x
  show setNext (setNext (nxtOf (A0 ++ [P, cur])) P none) cur
      (some ((A0 ++ [P]).headD 0)) x = nxtOf (cur :: (A0 ++ [P])) x
  by_cases hxc : x = cur
  · subst hxc
    rw [setNext_self]
    have : nxtOf ([] ++ x :: (A0 ++ [P])) x = (A0 ++ [P]).head? :=
      nxtOf_append [] x (A0 ++ [P]) (by simp)
    simp only [List.nil_append] at this
    rw [this, head?_eq_headD A0 P []]
  · rw [setNext_other _ _ _ _ hxc]
    by_cases hxP : x = P
    · subst hxP
      rw [setNext_self]
      have := nxtOf_append (cur :: A0) x [] (by simp [hxc, hPA0, List.mem_cons])
      simpa using this.symm
    · rw [setNext_other _ _ _ _ hxP]
      by_cases hxA : x ∈ A0
      · obtain ⟨A1, A2, rfl⟩ := List.append_of_mem hxA
        have hxA1 : x ∉ A1 := by
          intro hmem
          have hndA : (A1 ++ x :: A2).Nodup := hnd.of_append_left
          exact (List.disjoint_of_nodup_append hndA) hmem (List.mem_cons_self x A2)
        have h1 : nxtOf ((A1 ++ x :: A2) ++ [P, cur]) x = (A2 ++ [P, cur]).head? := by
          have := nxtOf_append A1 x (A2 ++ [P, cur]) hxA1
          simpa using this
        have h2 : nxtOf (cur :: ((A1 ++ x :: A2) ++ [P])) x = (A2 ++ [P]).head? := by
          have := nxtOf_append (cur :: A1) x (A2 ++ [P])
            (by simp [hxc, hxA1, List.mem_cons])
          simpa using this
        rw [h1, h2]
        exact head?_append_eq A2 [P, cur] [P] rfl
      · rw [nxtOf_not_mem _ _ (by simp [hxA, hxP, hxc, List.mem_cons]),
            nxtOf_not_mem _ _ (by simp [hxA, hxP, hxc, List.mem_cons])]

/-- `move_up` when `current` is the head: `p` is the last node and
`current` moves behind it, becoming the new tail (monsterwm.c:921, 929,
937). -/
theorem move_up_head (C0 : List Nat) (P cur : Nat) (fuel : Nat)
    (hnd : (cur :: (C0 ++ [P])).Nodup)
    (hfuel : (cur :: (C0 ++ [P])).length + 1 ≤ fuel) :
    move_up fuel (mkState (cur :: (C0 ++ [P])) cur) =
      mkState ((C0 ++ [P]) ++ [cur]) cur := by
  have hc1 := List.nodup_cons.mp hnd
  have hcurC : cur ∉ C0 ++ [P] := hc1.1
  have hcurC0 : cur ∉ C0 := fun h => hcurC (List.mem_append.mpr (Or.inl h))
  have hcurP : cur ≠ P := by
    intro h
    exact hcurC (List.mem_append.mpr (Or.inr (by simp [h])))
  have hndC : (C0 ++ [P]).Nodup := hc1.2
  have hPC0 : P ∉ C0 := by
    intro h
    exact (List.disjoint_of_nodup_append hndC) h (List.mem_cons_self P [])
  have hprev0 := prev_client_head (C0 ++ [P]) cur fuel hnd (by simp)
    (by omega)
  have hlast : (C0 ++ [P]).getLast (by simp) = P := List.getLast_concat C0
  have hprev : prev_client fuel (mkState (cur :: (C0 ++ [P])) cur) (some cur) = some P := by
    rw [hprev0, hlast]
  have hnxtP : nxtOf (cur :: (C0 ++ [P])) P = none := by
    have := nxtOf_append (cur :: C0) P [] (by simp [Ne.symm hcurP, hPC0, List.mem_cons])
    simpa using this
  have hnxtcur : nxtOf (cur :: (C0 ++ [P])) cur = (C0 ++ [P]).head? := by
    have := nxtOf_append [] cur (C0 ++ [P]) (by simp)
    simpa using this
  rw [move_up_eq_noPP fuel (mkState (cur :: (C0 ++ [P])) cur) P hprev hnxtP]
  simp only [mkState, List.head?_cons, ite_true]
  rw [hnxtcur]
  have hPc2 : cur ≠ P := hcurP
  simp only [setNext_self, setNext_other _ _ _ cur hPc2]
  rw [hnxtcur, if_pos rfl]
  refine lstate_ext _ _ ?_ ?_ rfl
  · show (C0 ++ [P]).head? = ((C0 ++ [P]) ++ [cur]).head?
    cases C0 <;> simp
  funext x
  show setNext (setNext (nxtOf (cur :: (C0 ++ [P]))) P (some cur)) cur none x =
    nxtOf ((C0 ++ [P]) ++ [cur]) x
  by_cases hxc : x = cur
  · subst hxc
    rw [setNext_self]
    have := nxtOf_append (C0 ++ [P]) x [] hcurC
    simpa using this.symm
  · rw [setNext_other _ _ _ _ hxc]
    by_cases hxP : x = P
    · subst hxP
      rw [setNext_self]
      have := nxtOf_append C0 x [cur] hPC0
      simpa using this.symm
    · rw [setNext_other _ _ _ _ hxP]
      by_cases hxC : x ∈ C0
      · obtain ⟨C1, C2, rfl⟩ := List.append_of_mem hxC
        have hxC1 : x ∉ C1 := by
          intro hmem
          have hndA : (C1 ++ x :: C2).Nodup := hndC.of_append_left
          exact (List.disjoint_of_nodup_append hndA) hmem (List.mem_cons_self x C2)
        have h1 : nxtOf (cur :: ((C1 ++ x :: C2) ++ [P])) x = (C2 ++ [P]).head? := by
          have := nxtOf_append (cur :: C1) x (C2 ++ [P])
            (by simp [hxc, hxC1, List.mem_cons])
          simpa using this
        have h2 : nxtOf (((C1 ++ x :: C2) ++ [P]) ++ [cur]) x = (C2 ++ [P, cur]).head? := by
          have := nxtOf_append C1 x (C2 ++ [P, cur]) hxC1
          simpa using this
        rw [h1, h2]
        exact head?_append_eq C2 [P] [P, cur] rfl
      · rw [nxtOf_not_mem _ _ (by simp [hxC, hxP, hxc, List.mem_cons]),
            nxtOf_not_mem _ _ (by simp [hxC, hxP, hxc, List.mem_cons])]

/-- `move_up` when `current` is the second node: `p` is the head
(`pp = NULL`), and `current` becomes the new head (monsterwm.c:921, 929,
937). -/
theorem move_up_second (P cur : Nat) (B : List Nat) (fuel : Nat)
    (hnd : (P :: cur :: B).Nodup)
    (hfuel : (P :: cur :: B).length + 1 ≤ fuel) :
    move_up fuel (mkState (P :: cur :: B) cur) = mkState (cur :: P :: B) cur := by
  have hr1 := List.nodup_cons.mp hnd
  have hr2 := List.nodup_cons.mp hr1.2
  have hPc : P ≠ cur := fun h => hr1.1 (h ▸ List.mem_cons_self cur B)
  have hPB : P ∉ B := fun h => hr1.1 (List.mem_cons_of_mem cur h)
  have hcB : cur ∉ B := hr2.1
  have hcP : cur ≠ P := Ne.symm hPc
  have hndB : B.Nodup := hr2.2
  have hprev : prev_client fuel (mkState (P :: cur :: B) cur) (some cur) = some P := by
    have := prev_client_mid [] P cur B fuel (by simpa using hnd)
      (by simp only [List.length_nil, List.length_cons] at hfuel ⊢; omega)
    simpa using this
  have hnxtP : nxtOf (P :: cur :: B) P = some cur := by simp [nxtOf]
  have hnxtcur : nxtOf (P :: cur :: B) cur = B.head? := by
    have := nxtOf_append [P] cur B (by simp [hcP])
    simpa using this
  have hpp : walkPP (nxtOf (P :: cur :: B)) P fuel (some P) = none :=
    walkPP_head_none P (cur :: B) fuel hnd (by simpa using hfuel)
  rw [move_up_eq_pp_none fuel (mkState (P :: cur :: B) cur) P cur hprev hnxtP
    (by simpa using hpp)]
  simp only [mkState, List.head?_cons]
  have hne1 : (some P : Option Nat) ≠ some cur := by
    intro h
    exact hPc (Option.some.inj h)
  rw [if_neg hne1]
  rw [hnxtcur]
  have hne2 : B.head? ≠ some cur := head?_ne_some_of_not_mem B cur hcB
  rw [if_neg hne2]
  simp only [setNext_self, setNext_other _ _ _ cur hcP]
  rw [hnxtcur, if_neg hne2]
  refine lstate_ext _ _ rfl ?_ rfl
  funext x
  show setNext (setNext (nxtOf (P :: cur :: B)) P B.head?) cur (some P) x =
    nxtOf (cur :: P :: B) x
  by_cases hxc : x = cur
  · subst hxc
    rw [setNext_self]
    simp [nxtOf]
  · rw [setNext_other _ _ _ _ hxc]
    by_cases hxP : x = P
    · subst hxP
      rw [setNext_self]
      have := nxtOf_append [cur] x B (by simp [hxc])
      simpa using this.symm
    · rw [setNext_other _ _ _ _ hxP]
      by_cases hxB : x ∈ B
      · obtain ⟨B1, B2, rfl⟩ := List.append_of_mem hxB
        have hxB1 : x ∉ B1 := by
          intro hmem
          exact (List.disjoint_of_nodup_append hndB) hmem (List.mem_cons_self x B2)
        have h1 : nxtOf (P :: cur :: (B1 ++ x :: B2)) x = B2.head? := by
          have := nxtOf_append (P :: cur :: B1) x B2
            (by simp [hxc, hxP, hxB1, List.mem_cons])
          simpa using this
        have h2 : nxtOf (cur :: P :: (B1 ++ x :: B2)) x = B2.head? := by
          have := nxtOf_append (cur :: P :: B1) x B2
            (by simp [hxc, hxP, hxB1, List.mem_cons])
          simpa using this
        rw [h1, h2]
      · rw [nxtOf_not_mem _ _ (by simp [hxc, hxP, hxB, List.mem_cons]),
            nxtOf_not_mem _ _ (by simp [hxc, hxP, hxB, List.mem_cons])]

/-- `move_up` on an interior `current` with a predecessor-of-predecessor
`pp`: swap `current` with the node before it (monsterwm.c:921, 929,
937). -/
theorem move_up_mid (A0 : List Nat) (Q P cur : Nat) (B : List Nat) (fuel : Nat)
    (hnd : (A0 ++ Q :: P :: cur :: B).Nodup)
    (hfuel : (A0 ++ Q :: P :: cur :: B).length + 1 ≤ fuel) :
    move_up fuel (mkState (A0 ++ Q :: P :: cur :: B) cur) =
      mkState (A0 ++ Q :: cur :: P :: B) cur := by
  have hdisj := List.disjoint_of_nodup_append hnd
  have hndR : (Q :: P :: cur :: B).Nodup := hnd.of_append_right
  have hr1 := List.nodup_cons.mp hndR
  have hr2 := List.nodup_cons.mp hr1.2
  have hr3 := List.nodup_cons.mp hr2.2
  have hQA0 : Q ∉ A0 := fun h => hdisj h (List.mem_cons_self Q _)
  have hPA0 : P ∉ A0 := fun h =>
    hdisj h (List.mem_cons_of_mem Q (List.mem_cons_self P _))
  have hcurA0 : cur ∉ A0 := fun h =>
    hdisj h (List.mem_cons_of_mem Q (List.mem_cons_of_mem P (List.mem_cons_self cur B)))
  have hQP : Q ≠ P := fun h => hr1.1 (h ▸ List.mem_cons_self P _)
  have hQc : Q ≠ cur := by
    intro h
    exact hr1.1 (by rw [h]; exact List.mem_cons_of_mem P (List.mem_cons_self cur B))
  have hQB : Q ∉ B := fun h =>
    hr1.1 (List.mem_cons_of_mem P (List.mem_cons_of_mem cur h))
  have hPc : P ≠ cur := fun h => hr2.1 (h ▸ List.mem_cons_self cur B)
  have hPB : P ∉ B := fun h => hr2.1 (List.mem_cons_of_mem cur h)
  have hcB : cur ∉ B := hr3.1
  have hndB : B.Nodup := hr3.2
  have hcP : cur ≠ P := Ne.symm hPc
  have hcQ : cur ≠ Q := Ne.symm hQc
  have hPQ : P ≠ Q := Ne.symm hQP
  have hL : A0 ++ Q :: P :: cur :: B = (A0 ++ [Q]) ++ P :: cur :: B := by simp
  have hprev : prev_client fuel (mkState (A0 ++ Q :: P :: cur :: B) cur) (some cur) =
      some P := by
    rw [hL]
    exact prev_client_mid (A0 ++ [Q]) P cur B fuel (by rw [← hL]; exact hnd)
      (by simp only [List.length_append, List.length_cons, List.length_nil] at hfuel ⊢; omega)
  have hnxtP : nxtOf (A0 ++ Q :: P :: cur :: B) P = some cur := by
    have := nxtOf_append (A0 ++ [Q]) P (cur :: B) (by simp [hPA0, hPQ])
    simpa using this
  have hnxtcur : nxtOf (A0 ++ Q :: P :: cur :: B) cur = B.head? := by
    have := nxtOf_append (A0 ++ [Q, P]) cur B
      (by simp [hcurA0, hcQ, hcP, List.mem_cons])
    simpa using this
  have hhead : (A0 ++ Q :: P :: cur :: B).head? = some ((A0 ++ [Q]).headD 0) :=
    head?_eq_headD A0 Q (P :: cur :: B)
  have hpp : walkPP (nxtOf (A0 ++ Q :: P :: cur :: B)) P fuel
      (A0 ++ Q :: P :: cur :: B).head? = some Q := by
    rw [hhead]
    exact walkPP_finds A0 (A0 ++ Q :: P :: cur :: B) [] Q P (cur :: B) fuel
      (by simp) hnd (by simp only [List.length_append, List.length_cons] at hfuel ⊢; omega)
  rw [move_up_eq_pp_some fuel (mkState (A0 ++ Q :: P :: cur :: B) cur) P cur Q
    hprev hnxtP hpp]
  simp only [mkState]
  have hYmem : (A0 ++ [Q]).headD 0 ∈ A0 ++ [Q] := headD_concat_mem A0 Q
  have hYne : B.head? ≠ (A0 ++ Q :: P :: cur :: B).head? := by
    rw [hhead]
    intro h
    have hm := List.mem_append.mp hYmem
    cases hB : B with
    | nil => rw [hB] at h; simp at h
    | cons b r =>
      rw [hB] at h
      simp only [List.head?_cons] at h
      have hb : b = (A0 ++ [Q]).headD 0 := Option.some.inj h
      have hbB : b ∈ B := by rw [hB]; exact List.mem_cons_self b r
      rcases hm with hm | hm
      · rw [hb] at hbB
        exact hdisj hm (by
          apply List.mem_cons_of_mem Q
          apply List.mem_cons_of_mem P
          exact List.mem_cons_of_mem cur hbB)
      · simp only [List.mem_singleton] at hm
        apply hQB
        rw [← hb] at hm
        rw [hm] at hbB
        exact hbB
  have h2 : setNext (nxtOf (A0 ++ Q :: P :: cur :: B)) Q (some cur) cur = B.head? := by
    rw [setNext_other _ _ _ _ hcQ, hnxtcur]
  rw [h2, if_neg hYne]
  have h3 : setNext (setNext (nxtOf (A0 ++ Q :: P :: cur :: B)) Q (some cur)) P
      B.head? cur = B.head? := by
    rw [setNext_other _ _ _ _ hcP, setNext_other _ _ _ _ hcQ, hnxtcur]
  rw [h3, if_neg hYne]
  refine lstate_ext _ _ ?_ ?_ rfl
  · exact head?_append_eq A0 (Q :: P :: cur :: B) (Q :: cur :: P :: B) rfl
  funext x
  show setNext (setNext (setNext (nxtOf (A0 ++ Q :: P :: cur :: B)) Q (some cur)) P
      B.head?) cur (some P) x = nxtOf (A0 ++ Q :: cur :: P :: B) x
  by_cases hxc : x = cur
  · subst hxc
    rw [setNext_self]
    have := nxtOf_append (A0 ++ [Q]) x (P :: B) (by simp [hcurA0, hcQ])
    simpa using this.symm
  · rw [setNext_other _ _ _ _ hxc]
    by_cases hxP : x = P
    · subst hxP
      rw [setNext_self]
      have := nxtOf_append (A0 ++ [Q, cur]) x B
        (by simp [hPA0, hPQ, hxc, List.mem_cons])
      simpa using this.symm
    · rw [setNext_other _ _ _ _ hxP]
      by_cases hxQ : x = Q
      · subst hxQ
        rw [setNext_self]
        have := nxtOf_append A0 x (cur :: P :: B) hQA0
        simpa using this.symm
      · rw [setNext_other _ _ _ _ hxQ]
        by_cases hxA : x ∈ A0
        · obtain ⟨A1, A2, rfl⟩ := List.append_of_mem hxA
          have hxA1 : x ∉ A1 := by
            intro hmem
            have hndA : (A1 ++ x :: A2).Nodup := hnd.of_append_left
            exact (List.disjoint_of_nodup_append hndA) hmem (List.mem_cons_self x A2)
          have h4 : nxtOf ((A1 ++ x :: A2) ++ Q :: P :: cur :: B) x =
              (A2 ++ Q :: P :: cur :: B).head? := by
            have := nxtOf_append A1 x (A2 ++ Q :: P :: cur :: B) hxA1
            simpa using this
          have h5 : nxtOf ((A1 ++ x :: A2) ++ Q :: cur :: P :: B) x =
              (A2 ++ Q :: cur :: P :: B).head? := by
            have := nxtOf_append A1 x (A2 ++ Q :: cur :: P :: B) hxA1
            simpa using this
          rw [h4, h5]
          exact head?_append_eq A2 (Q :: P :: cur :: B) (Q :: cur :: P :: B) rfl
        · by_cases hxB : x ∈ B
          · obtain ⟨B1, B2, rfl⟩ := List.append_of_mem hxB
            have hxB1 : x ∉ B1 := by
              intro hmem
              exact (List.disjoint_of_nodup_append hndB) hmem (List.mem_cons_self x B2)
            have h4 : nxtOf (A0 ++ Q :: P :: cur :: (B1 ++ x :: B2)) x = B2.head? := by
              have := nxtOf_append (A0 ++ Q :: P :: cur :: B1) x B2
                (by simp [hxA, hxQ, hxP, hxc, hxB1, List.mem_cons])
              simpa using this
            have h5 : nxtOf (A0 ++ Q :: cur :: P :: (B1 ++ x :: B2)) x = B2.head? := by
              have := nxtOf_append (A0 ++ Q :: cur :: P :: B1) x B2
                (by simp [hxA, hxQ, hxP, hxc, hxB1, List.mem_cons])
              simpa using this
            rw [h4, h5]
          · rw [nxtOf_not_mem _ _ (by simp [hxA, hxQ, hxP, hxc, hxB, List.mem_cons]),
                nxtOf_not_mem _ _ (by simp [hxA, hxQ, hxP, hxc, hxB, List.mem_cons])]

theorem stateList_of_perm (X l : List Nat) (c : Nat) (hperm : X.Perm l) (hndl : l.Nodup) :
    stateList (l.length + 1) (mkState X c) = X := by
  have hndX : X.Nodup := hperm.nodup_iff.mpr hndl
  exact stateList_mkState X c hndX _ (by rw [hperm.length_eq]; omega)

theorem down_up_core_tail (A1 : List Nat) (P cur : Nat)
    (hnd : (A1 ++ [P, cur]).Nodup) :
    ∃ l1 l2,
      move_down ((A1 ++ [P, cur]).length + 1) (mkState (A1 ++ [P, cur]) cur) =
        mkState l1 cur ∧
      l1.Perm (A1 ++ [P, cur]) ∧
      move_up ((A1 ++ [P, cur]).length + 1) (mkState (A1 ++ [P, cur]) cur) =
        mkState l2 cur ∧
      l2.Perm (A1 ++ [P, cur]) ∧
      move_up ((A1 ++ [P, cur]).length + 1) (mkState l1 cur) =
        mkState (A1 ++ [P, cur]) cur := by
  have hshL : A1 ++ [P, cur] = (A1 ++ [P]) ++ [cur] := by simp
  have hperm1 : (cur :: (A1 ++ [P])).Perm (A1 ++ [P, cur]) := by
    rw [hshL]
    exact (List.perm_append_singleton cur (A1 ++ [P])).symm
  have hcomp : move_up ((A1 ++ [P, cur]).length + 1) (mkState (cur :: (A1 ++ [P])) cur) =
      mkState (A1 ++ [P, cur]) cur := by
    have h := move_up_head A1 P cur ((A1 ++ [P, cur]).length + 1)
      (hperm1.nodup_iff.mpr hnd)
      (by have := hperm1.length_eq; omega)
    rw [h, ← hshL]
  have hdown : move_down ((A1 ++ [P, cur]).length + 1) (mkState (A1 ++ [P, cur]) cur) =
      mkState (cur :: (A1 ++ [P])) cur :=
    move_down_tail A1 P cur _ hnd (Nat.le_succ _)
  rcases List.eq_nil_or_concat A1 with rfl | ⟨A0, Q, hA⟩
  · refine ⟨cur :: ([] ++ [P]), cur :: P :: [], hdown, hperm1, ?_, ?_, hcomp⟩
    · simp only [List.nil_append]
      exact move_up_second P cur [] _ (by simpa using hnd) (by simp)
    · simpa using List.Perm.swap P cur []
  · subst hA
    have hsh2 : A0.concat Q ++ [P, cur] = A0 ++ Q :: P :: cur :: [] := by
      simp [List.concat_eq_append]
    refine ⟨cur :: (A0.concat Q ++ [P]), A0 ++ Q :: cur :: P :: [], hdown, hperm1, ?_, ?_, hcomp⟩
    · rw [hsh2]
      exact move_up_mid A0 Q P cur [] _ (by rw [← hsh2]; exact hnd)
        (by rw [← hsh2])
    · rw [hsh2]
      exact List.Perm.append_left A0 (List.Perm.cons Q (List.Perm.swap P cur []))

theorem down_up_core_head (n cur : Nat) (B1 : List Nat)
    (hnd : (cur :: n :: B1).Nodup) :
    ∃ l1 l2,
      move_down ((cur :: n :: B1).length + 1) (mkState (cur :: n :: B1) cur) =
        mkState l1 cur ∧
      l1.Perm (cur :: n :: B1) ∧
      move_up ((cur :: n :: B1).length + 1) (mkState (cur :: n :: B1) cur) =
        mkState l2 cur ∧
      l2.Perm (cur :: n :: B1) ∧
      move_up ((cur :: n :: B1).length + 1) (mkState l1 cur) =
        mkState (cur :: n :: B1) cur := by
  obtain ⟨C0, PP, hC⟩ : ∃ C0 PP, n :: B1 = C0 ++ [PP] := by
    rcases List.eq_nil_or_concat (n :: B1) with h | ⟨C0, PP, h⟩
    · simp at h
    · exact ⟨C0, PP, by rw [h, List.concat_eq_append]⟩
  refine ⟨n :: cur :: B1, (n :: B1) ++ [cur], ?_, ?_, ?_, ?_, ?_⟩
  · exact move_down_head n cur B1 _ hnd (Nat.le_succ _)
  · exact List.Perm.swap cur n B1
  · have h := move_up_head C0 PP cur ((cur :: n :: B1).length + 1)
      (by rw [hC] at hnd; exact hnd) (by rw [hC])
    rw [← hC] at h
    exact h
  · exact List.perm_append_singleton cur (n :: B1)
  · exact move_up_second n cur B1 _
      ((List.Perm.swap cur n B1).nodup_iff.mpr hnd) (Nat.le_refl _)

theorem down_up_core_mid (A1 : List Nat) (P cur n : Nat) (B1 : List Nat)
    (hnd : (A1 ++ P :: cur :: n :: B1).Nodup) :
    ∃ l1 l2,
      move_down ((A1 ++ P :: cur :: n :: B1).length + 1)
        (mkState (A1 ++ P :: cur :: n :: B1) cur) = mkState l1 cur ∧
      l1.Perm (A1 ++ P :: cur :: n :: B1) ∧
      move_up ((A1 ++ P :: cur :: n :: B1).length + 1)
        (mkState (A1 ++ P :: cur :: n :: B1) cur) = mkState l2 cur ∧
      l2.Perm (A1 ++ P :: cur :: n :: B1) ∧
      move_up ((A1 ++ P :: cur :: n :: B1).length + 1) (mkState l1 cur) =
        mkState (A1 ++ P :: cur :: n :: B1) cur := by
  have hdown : move_down ((A1 ++ P :: cur :: n :: B1).length + 1)
      (mkState (A1 ++ P :: cur :: n :: B1) cur) =
      mkState (A1 ++ P :: n :: cur :: B1) cur :=
    move_down_mid A1 P cur n B1 _ hnd (Nat.le_succ _)
  have hdperm : (A1 ++ P :: n :: cur :: B1).Perm (A1 ++ P :: cur :: n :: B1) :=
    List.Perm.append_left A1 (List.Perm.cons P (List.Perm.swap cur n B1))
  have hcomp : move_up ((A1 ++ P :: cur :: n :: B1).length + 1)
      (mkState (A1 ++ P :: n :: cur :: B1) cur) =
      mkState (A1 ++ P :: cur :: n :: B1) cur := by
    exact move_up_mid A1 P n cur B1 ((A1 ++ P :: cur :: n :: B1).length + 1)
      (hdperm.nodup_iff.mpr hnd) (by have := hdperm.length_eq; omega)
  rcases List.eq_nil_or_concat A1 with rfl | ⟨A0, Q, hA⟩
  · refine ⟨[] ++ P :: n :: cur :: B1, cur :: P :: n :: B1, hdown, hdperm, ?_, ?_, hcomp⟩
    · simp only [List.nil_append]
      exact move_up_second P cur (n :: B1) _ (by simpa using hnd) (Nat.le_refl _)
    · simpa using List.Perm.swap P cur (n :: B1)
  · subst hA
    have hsh2 : A0.concat Q ++ P :: cur :: n :: B1 = A0 ++ Q :: P :: cur :: n :: B1 := by
      simp [List.concat_eq_append]
    refine ⟨A0.concat Q ++ P :: n :: cur :: B1, A0 ++ Q :: cur :: P :: n :: B1,
      hdown, hdperm, ?_, ?_, hcomp⟩
    · rw [hsh2]
      exact move_up_mid A0 Q P cur (n :: B1) _ (by rw [← hsh2]; exact hnd)
        (by rw [← hsh2])
    · rw [hsh2]
      exact List.Perm.append_left A0 (List.Perm.cons Q (List.Perm.swap P cur (n :: B1)))

/-- Both moves map the heap of a duplicate-free list with `current` a
member to the heap of a permutation, and `move_up` undoes `move_down`. -/
theorem down_up_main (l : List Nat) (cur : Nat)
    (hnd : l.Nodup) (hmem : cur ∈ l) (hlen : 2 ≤ l.length) :
    ∃ l1 l2,
      move_down (l.length + 1) (mkState l cur) = mkState l1 cur ∧
      l1.Perm l ∧
      move_up (l.length + 1) (mkState l cur) = mkState l2 cur ∧
      l2.Perm l ∧
      move_up (l.length + 1) (mkState l1 cur) = mkState l cur := by
  obtain ⟨A, B, rfl⟩ := List.append_of_mem hmem
  cases B with
  | nil =>
    rcases List.eq_nil_or_concat A with rfl | ⟨A1, P, hA⟩
    · simp at hlen
    · subst hA
      have hsh : A1.concat P ++ cur :: [] = A1 ++ [P, cur] := by
        simp [List.concat_eq_append]
      rw [hsh] at hnd ⊢
      exact down_up_core_tail A1 P cur hnd
  | cons n B1 =>
    rcases List.eq_nil_or_concat A with rfl | ⟨A1, P, hA⟩
    · simp only [List.nil_append] at hnd ⊢
      exact down_up_core_head n cur B1 hnd
    · subst hA
      have hsh : A1.concat P ++ cur :: n :: B1 = A1 ++ P :: cur :: n :: B1 := by
        simp [List.concat_eq_append]
      rw [hsh] at hnd ⊢
      exact down_up_core_mid A1 P cur n B1 hnd

/-- C4: on every client list of length at least 2 (with distinct nodes)
holding a focused client, `move_down` and `move_up` each preserve list
integrity — the stored list stays a NULL-terminated permutation of the
original, with no node lost or duplicated — and the sequence
`move_down(); move_up()` restores the original list order.  The split of
the list around `current` covers all four boundary cases: current at the
head, current at the tail, current the head of a 2-element list, and
current interior (monsterwm.c:867-939). -/
theorem move_down_move_up_inverse (l : List Nat) (cur : Nat)
    (hnd : l.Nodup) (hmem : cur ∈ l) (hlen : 2 ≤ l.length) :
    ((stateList (l.length + 1) (move_down (l.length + 1) (mkState l cur))).Perm l ∧
     (stateList (l.length + 1) (move_down (l.length + 1) (mkState l cur))).Nodup) ∧
    ((stateList (l.length + 1) (move_up (l.length + 1) (mkState l cur))).Perm l ∧
     (stateList (l.length + 1) (move_up (l.length + 1) (mkState l cur))).Nodup) ∧
    stateList (l.length + 1) (move_up (l.length + 1)
      (move_down (l.length + 1) (mkState l cur))) = l := by
  obtain ⟨l1, l2, hdown, hp1, hup, hp2, hcomp⟩ := down_up_main l cur hnd hmem hlen
  have hs1 : stateList (l.length + 1) (move_down (l.length + 1) (mkState l cur)) = l1 := by
    rw [hdown]
    exact stateList_of_perm l1 l cur hp1 hnd
  have hs2 : stateList (l.length + 1) (move_up (l.length + 1) (mkState l cur)) = l2 := by
    rw [hup]
    exact stateList_of_perm l2 l cur hp2 hnd
  refine ⟨⟨?_, ?_⟩, ⟨?_, ?_⟩, ?_⟩
  · rw [hs1]; exact hp1
  · rw [hs1]; exact hp1.nodup_iff.mpr hnd
  · rw [hs2]; exact hp2
  · rw [hs2]; exact hp2.nodup_iff.mpr hnd
  · rw [hdown, hcomp]
    exact stateList_mkState l cur hnd _ (Nat.le_succ _)


/-- Witness for `move_down_move_up_inverse` on the list `[1, 2, 3]` with
client 2 focused. -/
theorem move_down_move_up_inverse_witness :
    ((stateList ([1, 2, 3].length + 1) (move_down ([1, 2, 3].length + 1)
        (mkState [1, 2, 3] 2))).Perm [1, 2, 3] ∧
     (stateList ([1, 2, 3].length + 1) (move_down ([1, 2, 3].length + 1)
        (mkState [1, 2, 3] 2))).Nodup) ∧
    ((stateList ([1, 2, 3].length + 1) (move_up ([1, 2, 3].length + 1)
        (mkState [1, 2, 3] 2))).Perm [1, 2, 3] ∧
     (stateList ([1, 2, 3].length + 1) (move_up ([1, 2, 3].length + 1)
        (mkState [1, 2, 3] 2))).Nodup) ∧
    stateList ([1, 2, 3].length + 1) (move_up ([1, 2, 3].length + 1)
      (move_down ([1, 2, 3].length + 1) (mkState [1, 2, 3] 2))) = [1, 2, 3] :=
  move_down_move_up_inverse [1, 2, 3] 2 (by decide) (by decide) (by decide)

end Chain

/-! ## Multi-monitor window-manager state

Embedding of the global state of monsterwm-xcb: the `desktop` and
`monitor` structs (monsterwm.c:119-138) and the `monitors` array with the
`current_monitor` index / `CM` pointer.  Clients are identified by ids
(`Nat`); a desktop's client list is the `head` chain in order.  The
operations `select_monitor`, `save_desktop` and `select_desktop`
(monsterwm.c:1054-1085) are transcribed with their guards; `DESKTOPS` and
`MONITORS` come from the missing `config.h`, so `DESKTOPS` is a parameter
`D` and `MONITORS` is the length of the monitors list. -/

/-- The `desktop` struct (monsterwm.c:119-125): the per-desktop properties
saved and restored by `save_desktop` / `select_desktop`. -/
structure Desktop where
  master_size : Int
  mode : Nat
  growth : Int
  head : List Nat
  current : Option Nat
  prevfocus : Option Nat
  showpanel : Bool
deriving DecidableEq, Inhabited

/-- The `monitor` struct (monsterwm.c:127-138): live per-desktop fields
plus geometry, the current/previous desktop indices and the saved
desktops array. -/
structure Monitor where
  showpanel : Bool
  current_desktop : Nat
  previous_desktop : Nat
  growth : Int
  mode : Nat
  master_size : Int
  wh : Int
  ww : Int
  wx : Int
  wy : Int
  head : List Nat
  prevfocus : Option Nat
  current : Option Nat
  desktops : List Desktop
deriving DecidableEq, Inhabited

/-- The global state: the `monitors` array and the `current_monitor`
index (the `CM` pointer is `monitors[current_monitor]`). -/
structure WMState where
  current_monitor : Nat
  monitors : List Monitor
deriving DecidableEq, Inhabited

/-- The current monitor `CM`. -/
def getCM (s : WMState) : Monitor := s.monitors.getD s.current_monitor default

/-- Write back the current monitor (mutations through `CM` in the C). -/
def setCM (s : WMState) (m : Monitor) : WMState :=
  { s with monitors := s.monitors.set s.current_monitor m }

/-- `select_monitor(i)` (monsterwm.c:1054-1058): guard `i >= MONITORS`,
else set `CM` and `current_monitor`. -/
def select_monitor (s : WMState) (i : Nat) : WMState :=
  if i < s.monitors.length then { s with current_monitor := i } else s

/-- The live per-desktop fields of a monitor as a `Desktop` record —
exactly what `save_desktop` copies into `desktops[i]`. -/
def liveDesk (m : Monitor) : Desktop :=
  { master_size := m.master_size, mode := m.mode, growth := m.growth,
    head := m.head, current := m.current, prevfocus := m.prevfocus,
    showpanel := m.showpanel }

/-- `save_desktop(i)` (monsterwm.c:1061-1071): guard
`i < 0 || i >= DESKTOPS`, else copy the live fields into `desktops[i]`
(`i < 0` cannot arise for a `Nat` index). -/
def save_desktop (D : Nat) (m : Monitor) (i : Nat) : Monitor :=
  if i < D then { m with desktops := m.desktops.set i (liveDesk m) } else m

/-- `select_desktop(i)` (monsterwm.c:1073-1085): guard, save the current
desktop, load `desktops[i]` into the live fields and set
`current_desktop := i`. -/
def select_desktop (D : Nat) (m : Monitor) (i : Nat) : Monitor :=
  if i < D then
    let m1 := save_desktop D m m.current_desktop
    let d := m1.desktops.getD i default
    { m1 with master_size := d.master_size, mode := d.mode,
              growth := d.growth, head := d.head, current := d.current,
              showpanel := d.showpanel, prevfocus := d.prevfocus,
              current_desktop := i }
  else m

/-! ## focusurgent and the focus fields of update_current (C2) -/

/-- The walk of `prev_client` (monsterwm.c:953):
`for (p=CM->head; p->next && p->next != c; p=p->next)`; `p` is the node
before `rest`, which is `p->next` onward. -/
def prevClientWalk (c : Nat) : Nat → List Nat → Nat
  | p, [] => p
  | p, q :: rest => if q = c then p else prevClientWalk c q rest

/-- `prev_client(c)` (monsterwm.c:950-954) over the list model of the
current monitor's `head` chain: `NULL` when `c` is `NULL` or the list has
fewer than two nodes, else the walk from the head.  (With a `NULL` head
the C dereferences a null pointer; the call sites modeled here never reach
that case, and the model returns `none`.) -/
def prev_client (hd : List Nat) (c : Option Nat) : Option Nat :=
  match c with
  | none => none
  | some cc =>
    match hd with
    | [] => none
    | [_] => none
    | p :: rest => some (prevClientWalk cc p rest)

/-- The focus mutation of `update_current(c)` (monsterwm.c:1340-1346):
`NULL` clears both foci; `c == CM->prevfocus` swaps back and recomputes
`prevfocus` via `prev_client`; `c != CM->current` shifts the focus to `c`.
The remainder of the function (monsterwm.c:1348-1362) only issues X
requests and calls `tile()`, which do not touch these fields. -/
def update_current (m : Monitor) (c : Option Nat) : Monitor :=
  match c with
  | none => { m with current := none, prevfocus := none }
  | some cc =>
    if some cc = m.prevfocus then
      let m1 := { m with current := m.prevfocus }
      { m1 with prevfocus := prev_client m1.head m1.current }
    else if some cc ≠ m.current then
      { m with prevfocus := m.current, current := some cc }
    else m

/-- `focusurgent()` (monsterwm.c:618-621): for every monitor `m`, walk
`monitors[m].head` and call `update_current(c)` on every urgent client —
note that `update_current` always acts on `CM`, the current monitor,
regardless of which monitor's list `c` was found in.  Urgency hints are
the parameter `urgOf`. -/
def focusurgent (urgOf : Nat → Bool) (s : WMState) : WMState :=
  (List.range s.monitors.length).foldl
    (fun acc mi =>
      ((acc.monitors.getD mi default).head).foldl
        (fun acc2 c =>
          if urgOf c then setCM acc2 (update_current (getCM acc2) (some c))
          else acc2)
        acc)
    s

/-- Decidable check of the focus-reachability invariant on the current
monitor: `current` and `prevfocus`, when set, are nodes of the live
`head` list. -/
def focusReachableB (s : WMState) : Bool :=
  (match (getCM s).current with
   | none => true
   | some c => (getCM s).head.contains c) &&
  (match (getCM s).prevfocus with
   | none => true
   | some c => (getCM s).head.contains c)

/-- Two monitors, one desktop each, mirrored; monitor 0 (current) holds
client 1, monitor 1 holds client 2. -/
def c2mon0 : Monitor :=
  { showpanel := true, current_desktop := 0, previous_desktop := 0,
    growth := 0, mode := 0, master_size := 0, wh := 0, ww := 0, wx := 0,
    wy := 0, head := [1], prevfocus := none, current := some 1,
    desktops := [{ master_size := 0, mode := 0, growth := 0, head := [1],
                   current := some 1, prevfocus := none, showpanel := true }] }

/-- Second monitor of the `focusurgent` scenario: client 2 lives here. -/
def c2mon1 : Monitor :=
  { showpanel := true, current_desktop := 0, previous_desktop := 0,
    growth := 0, mode := 0, master_size := 0, wh := 0, ww := 0, wx := 0,
    wy := 0, head := [2], prevfocus := none, current := some 2,
    desktops := [{ master_size := 0, mode := 0, growth := 0, head := [2],
                   current := some 2, prevfocus := none, showpanel := true }] }

/-- The `focusurgent` scenario state: monitor 0 is current. -/
def c2state : WMState := { current_monitor := 0, monitors := [c2mon0, c2mon1] }

/-- Urgency hints of the scenario: only client 2 (on monitor 1) is urgent. -/
def c2urg (c : Nat) : Bool := c == 2

/-! ## desktopinfo (C10) -/

/-- One monitor iteration of `desktopinfo` (monsterwm.c:562-567),
state effects only: remember `cd = CM->current_desktop`, run
`select_desktop(d)` for `d = 0 .. DESKTOPS-1` (the printing reads the
loaded fields and is pure output), then `select_desktop(cd)`. -/
def diMonPass (D : Nat) (m : Monitor) : Monitor :=
  let cd := m.current_desktop
  let m1 := (List.range D).foldl (fun acc d => select_desktop D acc d) m
  select_desktop D m1 cd

/-- `desktopinfo()` (monsterwm.c:559-573), state effects only.  The C
variables `d` and `cd` survive the monitor loop: after it, `d = DESKTOPS`
if any monitor was visited (else `0`) and `cd` is the last monitor's
remembered `current_desktop` (else `0`).  The function then re-selects
`OLDM` and, `if (cd != d-1)`, runs `select_desktop(cd)` — on the restored
original monitor, with the LAST monitor's `cd`. -/
def desktopinfo (D : Nat) (s : WMState) : WMState :=
  let OLDM := s.current_monitor
  let p1 := (List.range s.monitors.length).foldl
    (fun (p : WMState × Nat × Nat) mi =>
      let s0 := select_monitor p.1 mi
      let cd := (getCM s0).current_desktop
      (setCM s0 (diMonPass D (getCM s0)), D, cd))
    (s, 0, 0)
  let s2 := select_monitor p1.1 OLDM
  if (p1.2.2 : Int) ≠ (p1.2.1 : Int) - 1 then
    setCM s2 (select_desktop D (getCM s2) p1.2.2)
  else s2

/-- First monitor of the `desktopinfo` scenario: two desktops, currently
on desktop 1 (client 5), desktop 0 empty; mirrored. -/
def c10mon0 : Monitor :=
  { showpanel := true, current_desktop := 1, previous_desktop := 0,
    growth := 0, mode := 0, master_size := 0, wh := 0, ww := 0, wx := 0,
    wy := 0, head := [5], prevfocus := none, current := some 5,
    desktops := [{ master_size := 0, mode := 0, growth := 0, head := [],
                   current := none, prevfocus := none, showpanel := true },
                 { master_size := 0, mode := 0, growth := 0, head := [5],
                   current := some 5, prevfocus := none, showpanel := true }] }

/-- Second monitor of the `desktopinfo` scenario: two desktops, currently
on desktop 0; mirrored. -/
def c10mon1 : Monitor :=
  { showpanel := true, current_desktop := 0, previous_desktop := 0,
    growth := 0, mode := 0, master_size := 0, wh := 0, ww := 0, wx := 0,
    wy := 0, head := [], prevfocus := none, current := none,
    desktops := [{ master_size := 0, mode := 0, growth := 0, head := [],
                   current := none, prevfocus := none, showpanel := true },
                 { master_size := 0, mode := 0, growth := 0, head := [],
                   current := none, prevfocus := none, showpanel := true }] }

/-- The `desktopinfo` scenario state: monitor 0 is current, on desktop 1;
monitor 1 is on desktop 0. -/
def c10state : WMState := { current_monitor := 0, monitors := [c10mon0, c10mon1] }

/-- C2: focus reachability is NOT preserved by `focusurgent`.  In the
two-monitor state `c2state` (monitor 0 current with client list `[1]`,
monitor 1 with client list `[2]`) where only client 2 — on monitor 1 — is
urgent, the invariant holds before the call, but `focusurgent` passes the
other monitor's client to `update_current`, which rewires the CURRENT
monitor's focus: afterwards monitor 0 has `current = some 2` although
client 2 is not in its `head` list, so the invariant is broken. -/
theorem focusurgent_breaks_reachability :
    focusReachableB c2state = true ∧
    c2urg 2 = true ∧
    (c2state.monitors.getD 1 default).head.contains 2 = true ∧
    ((c2state.monitors.getD 0 default).head.contains 2) = false ∧
    focusReachableB (focusurgent c2urg c2state) = false ∧
    (getCM (focusurgent c2urg c2state)).current = some 2 ∧
    ((getCM (focusurgent c2urg c2state)).head.contains 2) = false := by
  decide

/-- C10: `desktopinfo` is NOT a pure observer of window-manager state.
In the two-monitor, two-desktop state `c10state` (monitor 0 current, on
desktop 1 with client 5; monitor 1 on desktop 0), the trailing
`if (cd != d-1) select_desktop(cd)` uses the LAST monitor's remembered
`cd = 0` on the restored ORIGINAL monitor: monitor 0's current desktop
changes from 1 to 0 and its live client list from `[5]` to `[]`. -/
theorem desktopinfo_mutates_state :
    (c10state.monitors.getD 0 default).current_desktop = 1 ∧
    (c10state.monitors.getD 0 default).head = [5] ∧
    ((desktopinfo 2 c10state).monitors.getD 0 default).current_desktop = 0 ∧
    ((desktopinfo 2 c10state).monitors.getD 0 default).head = [] ∧
    desktopinfo 2 c10state ≠ c10state := by
  decide

/-! ## wintoclient (C1)

`wintoclient(w)` (monsterwm.c:1365-1372) searches the desktops of `CM`
— the current monitor only — for the client owning window `w`, using
`select_desktop` to page each desktop in, and restores the entry desktop
selection before returning.  Each client id's window is the parameter
`winOf`. -/

/-- The inner loop of `wintoclient` (monsterwm.c:1369): scan the loaded
`head` chain for the client whose window is `w`. -/
def findWin (winOf : Nat → Nat) (w : Nat) : List Nat → Option Nat
  | [] => none
  | c :: rest => if w = winOf c then some c else findWin winOf w rest

/-- The desktop loop of `wintoclient` (monsterwm.c:1368-1369): for
`d = 0 .. DESKTOPS-1`, `select_desktop(d)` then scan; on a match the loop
exits after the `++d`, so it returns the found client (or `NULL`), the
final value of `d` and the mutated monitor. -/
def wtcLoop (D : Nat) (winOf : Nat → Nat) (w : Nat) (d : Nat) (m : Monitor) :
    Option Nat × Nat × Monitor :=
  if h : d < D then
    match findWin winOf w (select_desktop D m d).head with
    | some c => (some c, d + 1, select_desktop D m d)
    | none => wtcLoop D winOf w (d + 1) (select_desktop D m d)
  else (none, d, m)
termination_by D - d
decreasing_by omega

/-- `wintoclient(w)` (monsterwm.c:1365-1372): remember
`cd = CM->current_desktop`, run the desktop loop from `d = 0`, and
`if (cd != d-1) select_desktop(cd)` before returning the result. -/
def wintoclient (D : Nat) (winOf : Nat → Nat) (s : WMState) (w : Nat) :
    Option Nat × WMState :=
  let cd := (getCM s).current_desktop
  let r := wtcLoop D winOf w 0 (getCM s)
  let m2 := if (cd : Int) ≠ (r.2.1 : Int) - 1 then select_desktop D r.2.2 cd
            else r.2.2
  (r.1, setCM s m2)

/-- The monitor mirrors its current desktop: `current_desktop` is in
range and `desktops[current_desktop]` holds exactly the live fields —
the invariant `save_desktop`/`select_desktop` maintain between events. -/
def Mirrored (m : Monitor) : Prop :=
  m.current_desktop < m.desktops.length ∧
  m.desktops.get? m.current_desktop = some (liveDesk m)

/-- The monitor `m` with desktop `i` paged into the live fields and
`current_desktop := i`; the `desktops` array is untouched. -/
def loadAt (m : Monitor) (i : Nat) : Monitor :=
  let d := m.desktops.getD i default
  { m with master_size := d.master_size, mode := d.mode, growth := d.growth,
           head := d.head, current := d.current, showpanel := d.showpanel,
           prevfocus := d.prevfocus, current_desktop := i }

/-- Writing back an element already present leaves a list unchanged. -/
theorem list_set_same {α : Type} (l : List α) (i : Nat) (a : α)
    (h : l.get? i = some a) : l.set i a = l := by
  induction l generalizing i with
  | nil => cases h
  | cons b t ih =>
    cases i with
    | zero =>
      simp only [List.get?] at h
      cases h
      rfl
    | succ j =>
      simp only [List.get?] at h
      simp only [List.set]
      rw [ih j h]

/-- In range, `get?` returns the `getD` value. -/
theorem get?_eq_some_getD {α : Type} [Inhabited α] (l : List α) (i : Nat)
    (h : i < l.length) : l.get? i = some (l.getD i default) := by
  induction l generalizing i with
  | nil => simp at h
  | cons b t ih =>
    cases i with
    | zero => rfl
    | succ j =>
      simp only [List.length_cons] at h
      exact ih j (by omega)

/-- Saving the current desktop of a mirrored monitor is a no-op. -/
theorem save_self {D : Nat} {m : Monitor} (hD : m.desktops.length = D)
    (hmir : Mirrored m) : save_desktop D m m.current_desktop = m := by
  unfold save_desktop
  rw [if_pos (hD ▸ hmir.1)]
  rw [list_set_same m.desktops m.current_desktop (liveDesk m) hmir.2]

/-- On a mirrored monitor, `select_desktop` of an in-range desktop is
exactly `loadAt`. -/
theorem select_eq_load {D : Nat} {m : Monitor} (hD : m.desktops.length = D)
    (hmir : Mirrored m) (i : Nat) (hi : i < D) :
    select_desktop D m i = loadAt m i := by
  unfold select_desktop loadAt
  rw [if_pos hi]
  simp only []
  rw [save_self hD hmir]

/-- `loadAt` keeps the desktops array. -/
theorem loadAt_desktops (m : Monitor) (i : Nat) :
    (loadAt m i).desktops = m.desktops := rfl

/-- Two consecutive loads collapse to the last one. -/
theorem loadAt_loadAt (m : Monitor) (i j : Nat) :
    loadAt (loadAt m i) j = loadAt m j := rfl

/-- Loading an in-range desktop yields a mirrored monitor. -/
theorem mirrored_loadAt {D : Nat} {m : Monitor} (hD : m.desktops.length = D)
    (i : Nat) (hi : i < D) : Mirrored (loadAt m i) := by
  constructor
  · show i < m.desktops.length
    omega
  · show m.desktops.get? i = some (liveDesk (loadAt m i))
    have hv : liveDesk (loadAt m i) = m.desktops.getD i default := rfl
    rw [hv]
    exact get?_eq_some_getD m.desktops i (by omega)

/-- Loading the current desktop of a mirrored monitor is the identity. -/
theorem loadAt_self {m : Monitor} (hmir : Mirrored m) :
    loadAt m m.current_desktop = m := by
  have h : m.desktops.getD m.current_desktop default = liveDesk m := by
    have h2 := get?_eq_some_getD m.desktops m.current_desktop hmir.1
    rw [hmir.2] at h2
    exact (Option.some.inj h2).symm
  unfold loadAt
  simp only []
  rw [h]
  exact rfl

/-- The monitors reachable inside `wintoclient`'s loop: the entry monitor
or any in-range `loadAt` of it. -/
def Reach (D : Nat) (M : Monitor) (m : Monitor) : Prop :=
  m = M ∨ ∃ i, i < D ∧ m = loadAt M i

/-- Reachable monitors share the desktops array. -/
theorem reach_desktops {D : Nat} {M m : Monitor} (h : Reach D M m) :
    m.desktops = M.desktops := by
  rcases h with rfl | ⟨i, _, rfl⟩
  · rfl
  · rfl

/-- On reachable monitors, `select_desktop` pages in the desktop from the
ORIGINAL monitor's array. -/
theorem select_reach {D : Nat} {M : Monitor} (hD : M.desktops.length = D)
    (hmir : Mirrored M) {m : Monitor} (h : Reach D M m) (j : Nat)
    (hj : j < D) : select_desktop D m j = loadAt M j := by
  rcases h with rfl | ⟨i, hi, rfl⟩
  · exact select_eq_load hD hmir j hj
  · rw [select_eq_load (by rw [loadAt_desktops]; exact hD)
        (mirrored_loadAt hD i hi) j hj, loadAt_loadAt]

/-- The loop with `d` past the bound returns immediately. -/
theorem wtcLoop_stop {D : Nat} {winOf : Nat → Nat} {w d : Nat}
    {m : Monitor} (hd : ¬ d < D) :
    wtcLoop D winOf w d m = (none, d, m) := by
  rw [wtcLoop]
  rw [dif_neg hd]

/-- One loop step when the scan of desktop `d` finds a client. -/
theorem wtcLoop_step_found {D : Nat} {winOf : Nat → Nat} {w d : Nat}
    {m : Monitor} {c : Nat} (hd : d < D)
    (hf : findWin winOf w (select_desktop D m d).head = some c) :
    wtcLoop D winOf w d m = (some c, d + 1, select_desktop D m d) := by
  rw [wtcLoop]
  rw [dif_pos hd, hf]

/-- One loop step when the scan of desktop `d` finds nothing. -/
theorem wtcLoop_step_none {D : Nat} {winOf : Nat → Nat} {w d : Nat}
    {m : Monitor} (hd : d < D)
    (hf : findWin winOf w (select_desktop D m d).head = none) :
    wtcLoop D winOf w d m = wtcLoop D winOf w (d + 1) (select_desktop D m d) := by
  conv_lhs => rw [wtcLoop]
  rw [dif_pos hd, hf]

/-- If desktop `d + n` of the original monitor holds the window and no
desktop in `[d, d+n)` does, the loop started at `d` on any reachable
monitor returns that client, `d + n + 1`, and `loadAt M (d + n)`. -/
theorem wtcLoop_found {D : Nat} {winOf : Nat → Nat} {w : Nat} {M : Monitor}
    (hD : M.desktops.length = D) (hmir : Mirrored M) :
    ∀ (n d : Nat) (m : Monitor) (cid : Nat), Reach D M m → d + n < D →
      findWin winOf w ((M.desktops.getD (d + n) default).head) = some cid →
      (∀ j, d ≤ j → j < d + n →
        findWin winOf w ((M.desktops.getD j default).head) = none) →
      wtcLoop D winOf w d m = (some cid, d + n + 1, loadAt M (d + n)) := by
  intro n
  induction n with
  | zero =>
    intro d m cid hr hdn hf _hnone
    have hd : d < D := by omega
    have hsel : select_desktop D m d = loadAt M d := select_reach hD hmir hr d hd
    have hf2 : findWin winOf w (select_desktop D m d).head = some cid := by
      rw [hsel]
      show findWin winOf w ((M.desktops.getD d default).head) = some cid
      simpa using hf
    rw [wtcLoop_step_found hd hf2, hsel]
    simp
  | succ n ih =>
    intro d m cid hr hdn hf hnone
    have hd : d < D := by omega
    have hsel : select_desktop D m d = loadAt M d := select_reach hD hmir hr d hd
    have hfd : findWin winOf w (select_desktop D m d).head = none := by
      rw [hsel]
      show findWin winOf w ((M.desktops.getD d default).head) = none
      exact hnone d (Nat.le_refl d) (by omega)
    rw [wtcLoop_step_none hd hfd, hsel]
    have harith : d + 1 + n = d + (n + 1) := by omega
    have hres := ih (d + 1) (loadAt M d) cid (Or.inr ⟨d, hd, rfl⟩)
      (by omega)
      (by rw [harith]; exact hf)
      (fun j hj1 hj2 => hnone j (by omega) (by omega))
    rw [harith] at hres
    exact hres

/-- If no desktop of the original monitor holds the window, the loop
started at `d` on any reachable monitor returns `NULL`, `D`, and
`loadAt M (D - 1)`. -/
theorem wtcLoop_notfound {D : Nat} {winOf : Nat → Nat} {w : Nat}
    {M : Monitor} (hD : M.desktops.length = D) (hmir : Mirrored M) :
    ∀ (n d : Nat) (m : Monitor), Reach D M m → d + n + 1 = D →
      (∀ j, d ≤ j → j < D →
        findWin winOf w ((M.desktops.getD j default).head) = none) →
      wtcLoop D winOf w d m = (none, D, loadAt M (D - 1)) := by
  intro n
  induction n with
  | zero =>
    intro d m hr hdn hnone
    have hd : d < D := by omega
    have hsel : select_desktop D m d = loadAt M d := select_reach hD hmir hr d hd
    have hfd : findWin winOf w (select_desktop D m d).head = none := by
      rw [hsel]
      show findWin winOf w ((M.desktops.getD d default).head) = none
      exact hnone d (Nat.le_refl d) hd
    rw [wtcLoop_step_none hd hfd, hsel]
    rw [wtcLoop_stop (by omega)]
    have h1 : d + 1 = D := by omega
    have h2 : D - 1 = d := by omega
    rw [h1, h2]
  | succ n ih =>
    intro d m hr hdn hnone
    have hd : d < D := by omega
    have hsel : select_desktop D m d = loadAt M d := select_reach hD hmir hr d hd
    have hfd : findWin winOf w (select_desktop D m d).head = none := by
      rw [hsel]
      show findWin winOf w ((M.desktops.getD d default).head) = none
      exact hnone d (Nat.le_refl d) hd
    rw [wtcLoop_step_none hd hfd, hsel]
    exact ih (d + 1) (loadAt M d) (Or.inr ⟨d, hd, rfl⟩) (by omega)
      (fun j hj1 hj2 => hnone j (by omega) hj2)

/-- Writing the unchanged current monitor back is the identity. -/
theorem setCM_self {s : WMState} (hm : s.current_monitor < s.monitors.length) :
    setCM s (getCM s) = s := by
  unfold setCM
  rw [list_set_same s.monitors s.current_monitor (getCM s)
      (get?_eq_some_getD s.monitors s.current_monitor hm)]

/-- `wintoclient` in terms of the result of its desktop loop. -/
theorem wintoclient_eq (D : Nat) (winOf : Nat → Nat) (s : WMState) (w : Nat)
    {res : Option Nat} {dEnd : Nat} {mEnd : Monitor}
    (h : wtcLoop D winOf w 0 (getCM s) = (res, dEnd, mEnd)) :
    wintoclient D winOf s w =
      (res, setCM s
        (if ((getCM s).current_desktop : Int) ≠ (dEnd : Int) - 1
         then select_desktop D mEnd (getCM s).current_desktop else mEnd)) := by
  unfold wintoclient
  rw [h]

/-- C1 (amended): `wintoclient` performs a linear search across every
desktop of the CURRENT monitor only.  On a mirrored monitor it returns
the first client owning `w` among the current monitor's desktops and
restores the entry desktop selection, leaving the state unchanged; when
no desktop of the current monitor holds `w` — in particular when the
owning client is tracked on another monitor — it returns `NULL`, again
leaving the state unchanged. -/
theorem wintoclient_current_monitor_spec (D : Nat) (winOf : Nat → Nat)
    (s : WMState) (w : Nat)
    (hm : s.current_monitor < s.monitors.length)
    (hD : (getCM s).desktops.length = D)
    (hmir : Mirrored (getCM s)) :
    (∀ k cid, k < D →
        findWin winOf w (((getCM s).desktops.getD k default).head) = some cid →
        (∀ j, j < k →
          findWin winOf w (((getCM s).desktops.getD j default).head) = none) →
        wintoclient D winOf s w = (some cid, s)) ∧
    ((∀ j, j < D →
        findWin winOf w (((getCM s).desktops.getD j default).head) = none) →
      wintoclient D winOf s w = (none, s)) := by
  have hcd : (getCM s).current_desktop < D := hD ▸ hmir.1
  constructor
  · intro k cid hk hf hnone
    have hloop : wtcLoop D winOf w 0 (getCM s) =
        (some cid, k + 1, loadAt (getCM s) k) := by
      have h := wtcLoop_found hD hmir k 0 (getCM s) cid (Or.inl rfl)
        (by omega) (by simpa using hf)
        (fun j _ hj2 => hnone j (by omega))
      simpa using h
    rw [wintoclient_eq D winOf s w hloop]
    by_cases hc : (getCM s).current_desktop = k
    · have hcond : ¬ (((getCM s).current_desktop : Int) ≠ ((k + 1 : Nat) : Int) - 1) := by
        push_cast
        omega
      rw [if_neg hcond, ← hc, loadAt_self hmir, setCM_self hm]
    · have hcond : ((getCM s).current_desktop : Int) ≠ ((k + 1 : Nat) : Int) - 1 := by
        push_cast
        omega
      rw [if_pos hcond,
          select_reach hD hmir (Or.inr ⟨k, hk, rfl⟩) _ hcd,
          loadAt_self hmir, setCM_self hm]
  · intro hnone
    rcases Nat.eq_zero_or_pos D with hD0 | hDpos
    · subst hD0
      have hloop : wtcLoop 0 winOf w 0 (getCM s) = (none, 0, getCM s) :=
        wtcLoop_stop (by omega)
      rw [wintoclient_eq 0 winOf s w hloop]
      have hcond : ((getCM s).current_desktop : Int) ≠ ((0 : Nat) : Int) - 1 := by
        omega
      rw [if_pos hcond]
      have hsel : select_desktop 0 (getCM s) (getCM s).current_desktop = getCM s := by
        unfold select_desktop
        rw [if_neg (by omega)]
      rw [hsel, setCM_self hm]
    · have hloop := wtcLoop_notfound hD hmir (D - 1) 0 (getCM s) (Or.inl rfl)
        (by omega) (fun j _ hj2 => hnone j hj2)
      rw [wintoclient_eq D winOf s w hloop]
      by_cases hc : (getCM s).current_desktop = D - 1
      · have hcond : ¬ (((getCM s).current_desktop : Int) ≠ (D : Int) - 1) := by
          omega
        rw [if_neg hcond, ← hc, loadAt_self hmir, setCM_self hm]
      · have hcond : ((getCM s).current_desktop : Int) ≠ (D : Int) - 1 := by
          omega
        rw [if_pos hcond,
            select_reach hD hmir (Or.inr ⟨D - 1, by omega, rfl⟩) _ hcd,
            loadAt_self hmir, setCM_self hm]

/-- Window ids of the C1 scenarios: client `c` owns window `c + 10`. -/
def c1winOf (c : Nat) : Nat := c + 10

/-- Monitor 0 of the C1 counterexample: one desktop, no clients, mirrored. -/
def c1mon0 : Monitor :=
  { showpanel := true, current_desktop := 0, previous_desktop := 0,
    growth := 0, mode := 0, master_size := 0, wh := 0, ww := 0, wx := 0,
    wy := 0, head := [], prevfocus := none, current := none,
    desktops := [{ master_size := 0, mode := 0, growth := 0, head := [],
                   current := none, prevfocus := none, showpanel := true }] }

/-- Monitor 1 of the C1 counterexample: client 1 (window 11) lives here,
mirrored. -/
def c1mon1 : Monitor :=
  { showpanel := true, current_desktop := 0, previous_desktop := 0,
    growth := 0, mode := 0, master_size := 0, wh := 0, ww := 0, wx := 0,
    wy := 0, head := [1], prevfocus := none, current := some 1,
    desktops := [{ master_size := 0, mode := 0, growth := 0, head := [1],
                   current := some 1, prevfocus := none, showpanel := true }] }

/-- The C1 counterexample state: monitor 0 is current, the client owning
window 11 is tracked on monitor 1. -/
def c1state : WMState := { current_monitor := 0, monitors := [c1mon0, c1mon1] }

/-- C1 counterexample: client 1 with window 11 is tracked (on monitor 1's
current desktop), yet `wintoclient(11)` returns `NULL`, because the
search never leaves the current monitor — refuting the claim that the
search spans every desktop of every monitor. -/
theorem wintoclient_other_monitor_cex :
    ((c1state.monitors.getD 1 default).head.contains 1) = true ∧
    c1winOf 1 = 11 ∧
    (wintoclient 1 c1winOf c1state 11).1 = none := by
  refine ⟨rfl, rfl, ?_⟩
  have hloop : wtcLoop 1 c1winOf 11 0 (getCM c1state) =
      (none, 1, select_desktop 1 (getCM c1state) 0) := by
    rw [wtcLoop_step_none (by omega) (by decide)]
    exact wtcLoop_stop (by omega)
  rw [wintoclient_eq 1 c1winOf c1state 11 hloop]

/-- Monitor of the C1 witness: one desktop holding client 3 (window 13),
mirrored. -/
def c1wmon : Monitor :=
  { showpanel := true, current_desktop := 0, previous_desktop := 0,
    growth := 0, mode := 0, master_size := 0, wh := 0, ww := 0, wx := 0,
    wy := 0, head := [3], prevfocus := none, current := some 3,
    desktops := [{ master_size := 0, mode := 0, growth := 0, head := [3],
                   current := some 3, prevfocus := none, showpanel := true }] }

/-- The C1 witness state: a single monitor with a single desktop. -/
def c1wstate : WMState := { current_monitor := 0, monitors := [c1wmon] }

/-- Witness for `wintoclient_current_monitor_spec`: on the one-monitor
state, `wintoclient(13)` finds client 3 on desktop 0 of the current
monitor and leaves the state unchanged. -/
theorem wintoclient_current_monitor_spec_witness :
    wintoclient 1 c1winOf c1wstate 13 = (some 3, c1wstate) :=
  (wintoclient_current_monitor_spec 1 c1winOf c1wstate 13 (by decide)
      (by decide) ⟨by decide, by decide⟩).1 0 3 (by decide) (by decide)
    (fun j hj => absurd hj (Nat.not_lt_zero j))

end Monsterwm
